import Mathlib

/-!
Verification of `arch/unitroot/unitroot.py` (unit-root tests: lag selection,
MacKinnon p-values, engine cache invalidation).

Shallow embedding conventions:
* Python floats are modelled as real numbers `ℝ` (exact arithmetic); the
  cache-invalidation state machines, which involve no numerics, use `ℚ` or a
  type parameter for the cached value so that witnesses can be checked by
  `decide`.
* numpy's `inf` (used to initialise `tstat[0]`) is modelled by `⊤ : EReal`;
  finite t-statistics are coerced reals.
* Exceptions (`raise ValueError`) are modelled by `Except`/`Option Err`
  results; a setter returns the error (if any) together with the state as it
  is at the moment of the raise, so "raise before mutation" is provable.
* External collaborators (numpy `qr`, `solve`, `inv`, `matrix_rank`,
  `scipy.stats.norm.cdf`) are modelled per the spec's collaborator contracts:
  `solve`/`inv` become Mathlib's matrix inverse (their unique output on the
  nonsingular inputs on which the paths are defined), `qr` becomes a pair of
  factor parameters constrained by the QR contract, and `norm.cdf` is an
  uninterpreted function parameter.
-/

open Matrix

namespace Arch

/-- Deterministic trend specification: `'nc'`, `'c'`, `'ct'`, `'ctt'`. -/
inductive Trend where
  | nc
  | c
  | ct
  | ctt
deriving DecidableEq

/-- Number of deterministic trend regressors. For the non-`'nc'` trends this
equals Python's `len(trend)` (`len('c') = 1`, `len('ct') = 2`,
`len('ctt') = 3`); for `'nc'` it is `0` (no regressors), while
`len('nc') = 2` is never used by the source. -/
def trendLength : Trend → ℕ
  | .nc => 0
  | .c => 1
  | .ct => 2
  | .ctt => 3

/-- Python's `len(trend)` on the trend string itself. -/
def trendStrLen : Trend → ℕ
  | .nc => 2
  | .c => 1
  | .ct => 2
  | .ctt => 3

/-- Phillips-Perron `test_type`: `'tau'` or `'rho'`.  The source validates the
assigned string against exactly these two values, so the input type enforces
what the validation enforces. -/
inductive TType where
  | tau
  | rho
deriving DecidableEq

/-- Exceptions raised by the embedded code. -/
inductive Err where
  | valueError
  | keyError
deriving DecidableEq

/-- A Python value assigned to the `lags` property: `None`, an `int`
(`int`/`long`/`np.int32`/`np.int64` all collapse to `ℤ`), or any non-integer
non-`None` object (`nonIntV`). -/
inductive LagsValue where
  | noneV
  | intV (z : ℤ)
  | nonIntV
deriving DecidableEq

/-- The validity test of the `lags` setter
(`UnitRootTest.lags`, unitroot.py:474-482): the setter accepts `None` and
non-negative integers and raises `ValueError` otherwise. -/
def lagsValid : LagsValue → Bool
  | .noneV => true
  | .intV z => decide (0 ≤ z)
  | .nonIntV => false

/-- The value stored in `_lags` by a successful assignment. -/
def lagsToOpt : LagsValue → Option ℤ
  | .noneV => none
  | .intV z => some z
  | .nonIntV => none

/-- State of a `UnitRootTest` instance: the fields touched by the
configuration setters and the lazy cache.  `stat = none` models
`self._stat is None` (result not computed / discarded); `α` is the type of the
cached statistic (its value is irrelevant to cache-invalidation behaviour). -/
structure URState (α : Type) where
  y : List ℚ
  lags : Option ℤ
  trend : Trend
  stat : Option α
deriving DecidableEq

variable {α : Type}

/-- `UnitRootTest._reset` (unitroot.py:370-374): discard the cached result. -/
def reset (s : URState α) : URState α := { s with stat := none }

/-- `UnitRootTest.lags` setter (unitroot.py:474-482), in source order:
validate (raise before any mutation), reset the cache only when the new value
differs from the stored one, then store the value. -/
def setLags (s : URState α) (v : LagsValue) : Option Err × URState α :=
  if ¬ lagsValid v then (some .valueError, s)
  else
    let s1 := if s.lags ≠ lagsToOpt v then reset s else s
    (none, { s1 with lags := lagsToOpt v })

/-- `UnitRootTest.trend` setter (unitroot.py:496-503): validate against the
engine's `valid_trends`, then reset and assign only when the value changes. -/
def setTrend (valid : List Trend) (s : URState α) (v : Trend) :
    Option Err × URState α :=
  if v ∉ valid then (some .valueError, s)
  else if s.trend ≠ v then (none, { reset s with trend := v })
  else (none, s)

/-- State of a `PhillipsPerron` instance (the fields the claims touch). -/
structure PPState (α : Type) where
  base : URState α
  testType : TType
deriving DecidableEq

/-- `PhillipsPerron.test_type` setter (unitroot.py:1006-1011): after
validation it calls `self._reset()` unconditionally — even when the new value
equals the current one — and then assigns. -/
def setTestType (s : PPState α) (v : TType) : Option Err × PPState α :=
  (none, { base := reset s.base, testType := v })

/-- State of an `ADF`/`DFGLS` instance (the fields the claims touch;
`method`/`low_memory`, which have no setters, are omitted). -/
structure ADFState (α : Type) where
  base : URState α
  maxLags : Option ℤ
deriving DecidableEq

/-- `ADF.max_lags` setter (unitroot.py:655-660): when the value changes it
resets the cache and clears the selected `_lags`; it then stores the value. -/
def setMaxLags (s : ADFState α) (v : Option ℤ) : Option Err × ADFState α :=
  if s.maxLags ≠ v then
    (none, { base := { reset s.base with lags := none }, maxLags := v })
  else (none, { s with maxLags := v })

/-- State of a `VarianceRatio` instance (the fields the claims touch). -/
structure VRState (α : Type) where
  base : URState α
  overlap : Bool
  robust : Bool
  debiased : Bool
deriving DecidableEq

/-- `VarianceRatio.overlap` setter (unitroot.py:1262-1265): unconditional
`self._reset()` then `self._overlap = bool(value)`. -/
def setOverlap (s : VRState α) (v : Bool) : Option Err × VRState α :=
  (none, { s with base := reset s.base, overlap := v })

/-- `VarianceRatio.robust` setter (unitroot.py:1272-1275): unconditional
reset then assign. -/
def setRobust (s : VRState α) (v : Bool) : Option Err × VRState α :=
  (none, { s with base := reset s.base, robust := v })

/-- `VarianceRatio.debiased` setter (unitroot.py:1281-1284): unconditional
reset then assign. -/
def setDebiased (s : VRState α) (v : Bool) : Option Err × VRState α :=
  (none, { s with base := reset s.base, debiased := v })

/-- `VarianceRatio.__init__` (unitroot.py:1226-1246): first the guard
`if lags < 2: raise ValueError`, then `UnitRootTest.__init__` runs the `lags`
setter (its non-negativity check is implied by `2 ≤ lags`) and the `trend`
setter with `valid_trends = ('nc', 'c')`; the remaining fields are stored and
`_stat` starts out `None`. -/
def vrInit (y : List ℚ) (lags : ℤ) (trend : Trend)
    (debiased robust overlap : Bool) : Except Err (VRState ℚ) :=
  if lags < 2 then .error .valueError
  else if trend ∉ [Trend.nc, Trend.c] then .error .valueError
  else .ok { base := { y := y, lags := some lags, trend := trend, stat := none },
             overlap := overlap, robust := robust, debiased := debiased }

/-! ### `mackinnonp` (unitroot.py:1347-1424) -/

/-- `dist_type` argument of `mackinnonp`: `'ADF-t'`, `'ADF-z'` or `'DFGLS'`
(after `.lower()`). -/
inductive DistType where
  | adfT
  | adfZ
  | dfgls
deriving DecidableEq

/-- The row of tabulated constants `mackinnonp` reads for one distribution
family and regression: boundary constants `tau_max`/`tau_min`/`tau_star`
(resp. the `adf_z_*` / `dfgls_*` versions) and the two polynomial coefficient
vectors, stored lowest-degree first as in the tables. -/
structure MKTable where
  maxstat : ℝ
  minstat : ℝ
  starstat : ℝ
  small_p : List ℝ
  large_p : List ℝ

/-- numpy `polyval(p, x)`: Horner evaluation with the highest-degree
coefficient first. -/
noncomputable def polyval (p : List ℝ) (x : ℝ) : ℝ :=
  p.foldl (fun acc c => acc * x + c) 0

/-- The table-dictionary dispatch of `mackinnonp` (unitroot.py:1389-1405):
`'adf-t'` indexes the tau tables by regression and `num_unit_roots - 1`;
`'adf-z'` and `'dfgls'` index their tables by regression.  The tables
themselves are opaque constants living outside this file's source, so they
are parameters; `none` models a `KeyError`/`IndexError` on an unsupported
regression. -/
def mkLookup (tauT : Trend → ℕ → Option MKTable)
    (adfzT dfglsT : Trend → Option MKTable)
    (dist : DistType) (reg : Trend) (nur : ℕ) : Option MKTable :=
  match dist with
  | .adfT => tauT reg (nur - 1)
  | .adfZ => adfzT reg
  | .dfgls => dfglsT reg

/-- `mackinnonp(stat, regression, num_unit_roots, dist_type)`
(unitroot.py:1347-1424).  `lg` models numpy `log` and `normCdf` models
`scipy.stats.norm.cdf` (external collaborators).  After the cointegration
guard and the table dispatch: a statistic above `maxstat` yields exactly 1.0,
below `minstat` exactly 0.0, and otherwise the small-regime (with the
`log(abs(stat))` transform for `'adf-z'`) or large-regime polynomial is
evaluated (the stored coefficients are reversed into numpy's highest-first
order, as in `polyval(poly_coef[::-1], stat)`) and passed through the normal
CDF. -/
noncomputable def mackinnonp (lg normCdf : ℝ → ℝ)
    (tauT : Trend → ℕ → Option MKTable) (adfzT dfglsT : Trend → Option MKTable)
    (stat : ℝ) (reg : Trend) (nur : ℕ) (dist : DistType) : Except Err ℝ :=
  if 1 < nur ∧ dist ≠ .adfT then .error .valueError
  else
    match mkLookup tauT adfzT dfglsT dist reg nur with
    | none => .error .keyError
    | some tbl =>
      if tbl.maxstat < stat then .ok 1
      else if stat < tbl.minstat then .ok 0
      else if stat ≤ tbl.starstat then
        .ok (normCdf (polyval tbl.small_p.reverse
          (if dist = .adfZ then lg |stat| else stat)))
      else .ok (normCdf (polyval tbl.large_p.reverse stat))

/-! ### `_select_best_ic` (unitroot.py:48-87) -/

/-- Python tuple comparison step used by `min(zip(crit, arange(maxlag + 1)))`:
of two (criterion, lag) pairs keep the lexicographically smaller one
(criterion first, lag as tie-break). -/
noncomputable def pmin (a b : ℝ × ℕ) : ℝ × ℕ :=
  if b.1 < a.1 ∨ (b.1 = a.1 ∧ b.2 < a.2) then b else a

/-- Python `min` over a list of (criterion, lag) pairs.  The source raises on
an empty iterable; the `[]` value below is junk that is never produced by the
call sites (there is always at least the lag-0 candidate). -/
noncomputable def lexFold : List (ℝ × ℕ) → ℝ × ℕ
  | [] => (0, 0)
  | p :: l => l.foldl pmin p

/-- Python's lexicographic `<=` on (criterion, lag) tuples, used to state
what `min(zip(...))` returns. -/
def LexLE (p q : ℝ × ℕ) : Prop :=
  p.1 < q.1 ∨ (p.1 = q.1 ∧ p.2 ≤ q.2)

/-- `llf = -nobs / 2.0 * (log(2 * pi) + log(sigma2) + 1)`
(unitroot.py:70). -/
noncomputable def llf (nobs σ2 : ℝ) : ℝ :=
  -nobs / 2 * (Real.log (2 * Real.pi) + Real.log σ2 + 1)

/-- The AIC score of candidate lag `k`: `crit = -2 * llf + 2 * lag`
(unitroot.py:73). -/
noncomputable def aicCrit (nobs σ2 : ℝ) (k : ℕ) : ℝ :=
  -2 * llf nobs σ2 + 2 * k

/-- The `method == 'aic'` branch of `_select_best_ic` (unitroot.py:72-74):
score every candidate lag `0..m` and take the minimum of the zipped
(criterion, lag) pairs. -/
noncomputable def selectAIC (nobs : ℝ) (m : ℕ) (sigma2 : ℕ → ℝ) : ℝ × ℕ :=
  lexFold ((List.range (m + 1)).map fun k => (aicCrit nobs (sigma2 k) k, k))

/-- The fixed threshold `stop = 1.6448536269514722` (unitroot.py:79). -/
noncomputable def stop : ℝ := 1.6448536269514722

/-- numpy `abs` on a possibly-infinite float: `|x| = max x (-x)`, with
`abs inf = inf` (`⊤`). -/
noncomputable def absE (v : EReal) : EReal := max v (-v)

/-- `argwhere(abs(tstat) >= stop)` (unitroot.py:80-81): the candidate lags
whose absolute t-statistic is at least the threshold. -/
noncomputable def tstatCandidates (tstat : List EReal) : List ℕ :=
  (List.range tstat.length).filter fun k =>
    decide ((stop : EReal) ≤ absE (tstat.getD k 0))

/-- The `method == 't-stat'` branch of `_select_best_ic` (unitroot.py:78-83):
`lag = max(argwhere(abs(tstat) >= stop))`, `icbest = tstat[lag]`.  `none`
models the `ValueError` numpy's `max` raises on an empty candidate list. -/
noncomputable def selectTstat (tstat : List EReal) : Option (EReal × ℕ) :=
  match (tstatCandidates tstat).maximum with
  | none => none
  | some lag => some (tstat.getD lag 0, lag)

/-! ### Default maximum lag of `_df_select_lags` (unitroot.py:259-267) -/

/-- `int(ceil(12. * power(nobs / 100., 1 / 4.)))`: the Schwert rule-of-thumb
default. -/
noncomputable def adfAutoMaxLags (n : ℕ) : ℤ :=
  ⌈(12 : ℝ) * ((n : ℝ) / 100) ^ ((1 : ℝ) / 4)⌉

/-- `max_max_lags = nobs // 2 - 1`, reduced by `len(trend)` unless the trend
is `'nc'` (unitroot.py:262-264). -/
def maxMaxLags (n : ℕ) (t : Trend) : ℤ :=
  if t = .nc then (n : ℤ) / 2 - 1 else (n : ℤ) / 2 - 1 - trendStrLen t

/-- The maximum lag `_df_select_lags` uses when `max_lags is None`
(unitroot.py:265-267): `max(min(default, max_max_lags), 0)`. -/
noncomputable def dfSelectLagsAutoMaxLags (n : ℕ) (t : Trend) : ℤ :=
  max (min (adfAutoMaxLags n) (maxMaxLags n t)) 0

/-- Modelled from the spec: "Default maximum lag, when unset:
`ceil(12·(n/100)^0.25)`, clamped to `[0, floor(n/2) - 1 - trend_length]`"
with `trend_length` the number of deterministic trend regressors (0 for
`'nc'`); clamping a value `x` to `[lo, hi]` is `max lo (min x hi)`. -/
noncomputable def specAutoMaxLags (n : ℕ) (t : Trend) : ℤ :=
  max 0 (min (adfAutoMaxLags n) ((n : ℤ) / 2 - 1 - trendLength t))

/-! ### The lag-selection regressions
(`_autolag_ols`, unitroot.py:171-225, and `_autolag_ols_low_memory`,
unitroot.py:89-168), for a series `y` of length `nobs + maxlag + 1`.
Both regress `lhs = deltay[maxlag:]` (`nobs` rows) on the lag-1 level,
deterministic trend regressors and `maxlag` lagged differences. -/

/-- `diff(y)`. -/
noncomputable def dy (y : ℕ → ℝ) (i : ℕ) : ℝ := y (i + 1) - y i

/-- `deltay.dot(deltay)` over the full differenced series (length `len`,
which the call sites instantiate with `nobs + maxlag`). -/
noncomputable def dyNorm2 (y : ℕ → ℝ) (len : ℕ) : ℝ :=
  ∑ i ∈ Finset.range len, dy y i ^ 2

/-- `level.dot(level)` for `level = y[maxlag:-1]` (unitroot.py:119-120). -/
noncomputable def levNorm2 (y : ℕ → ℝ) (maxlag nobs : ℕ) : ℝ :=
  ∑ t ∈ Finset.range nobs, y (maxlag + t) ^ 2

/-- Deterministic trend regressor number `j` at row `t` (modelled from the
spec: the deterministic regressors are the constant, the linear trend
`1..nobs` and its square, in that order — this is the column layout
`add_trend(..., prepend=True)` produces, `add_trend` living outside this
file). -/
noncomputable def trendVal (j t : ℕ) : ℝ :=
  if j = 0 then 1 else if j = 1 then (t : ℝ) + 1 else ((t : ℝ) + 1) ^ 2

/-- Entry `(t, j)` of the standard path's design matrix
(`_df_select_lags`, unitroot.py:270-283): `trendLength tr` trend columns
first, then the lag-1 level `y[maxlag + t]` (the column `lagmat` produced and
the source overwrites with `y[-nobs - 1:-1]`), then the lagged differences
`Δy[maxlag + t - ℓ]`, `ℓ = 1..maxlag`, highest lag last. -/
noncomputable def stdEntry (y : ℕ → ℝ) (maxlag : ℕ) (tr : Trend) (t j : ℕ) : ℝ :=
  if j < trendLength tr then trendVal j t
  else if j = trendLength tr then y (maxlag + t)
  else dy y (maxlag + t - (j - trendLength tr))

/-- `lhs = delta_y[-nobs:]`, the regressand of the standard path. -/
noncomputable def stdLhs (y : ℕ → ℝ) (maxlag t : ℕ) : ℝ := dy y (maxlag + t)

/-- The scale the low-memory path folds into trend column `j` (in the
standard column numbering 0 = constant, 1 = linear, 2 = quadratic):
`ones/sqrt(nobs)`, `t·sqrt(3)/nobs**(3/2)`, `tt·sqrt(5)/nobs**(5/2)`
(unitroot.py:126-136; `n^(3/2) = n·√n` and `n^(5/2) = n²·√n`). -/
noncomputable def lmScaleOf (nobs j : ℕ) : ℝ :=
  if j = 0 then (Real.sqrt nobs)⁻¹
  else if j = 1 then Real.sqrt 3 / ((nobs : ℝ) * Real.sqrt nobs)
  else Real.sqrt 5 / ((nobs : ℝ) ^ 2 * Real.sqrt nobs)

/-- Entry `(t, j)` of the regressor block whose Gram matrix the low-memory
path assembles as `xpx` (unitroot.py:116-153): column 0 is the level
normalised by its own norm, columns `1..trendLength` are the scaled trend
regressors in the source's append order (`tt`, then `t`, then the constant —
i.e. the standard trend columns reversed), and the lag columns are
`x1 = deltay[maxlag - i - 1 : -(1 + i)]` built from the `deltay` that was
normalised by its own norm (unitroot.py:117).  The `xpx`/`xpy` blocks the
source fills are exactly the Gram matrix/cross-products of these columns. -/
noncomputable def lmEntry (y : ℕ → ℝ) (maxlag nobs : ℕ) (tr : Trend) (t j : ℕ) : ℝ :=
  if j = 0 then y (maxlag + t) / Real.sqrt (levNorm2 y maxlag nobs)
  else if j ≤ trendLength tr then
    lmScaleOf nobs (trendLength tr - j) * trendVal (trendLength tr - j) t
  else dy y (maxlag + t - (j - trendLength tr)) /
    Real.sqrt (dyNorm2 y (nobs + maxlag))

/-- `lhs = deltay[maxlag:][:, None]` of the low-memory path, after `deltay`
was normalised by its own norm (unitroot.py:117-118). -/
noncomputable def lmLhs (y : ℕ → ℝ) (maxlag nobs t : ℕ) : ℝ :=
  dy y (maxlag + t) / Real.sqrt (dyNorm2 y (nobs + maxlag))

/-- The `nobs × c` matrix with entries `f t j`. -/
def Xmat (nobs c : ℕ) (f : ℕ → ℕ → ℝ) : Matrix (Fin nobs) (Fin c) ℝ :=
  Matrix.of fun t j => f (t : ℕ) (j : ℕ)

/-- The `nobs`-vector with entries `g t`. -/
def vecOf (nobs : ℕ) (g : ℕ → ℝ) : Fin nobs → ℝ := fun t => g (t : ℕ)

/-- The Gram matrix `X'X` of the first `c` columns (`xpx[:c, :c]`). -/
noncomputable def gram (nobs c : ℕ) (f : ℕ → ℕ → ℝ) : Matrix (Fin c) (Fin c) ℝ :=
  (Xmat nobs c f)ᵀ * Xmat nobs c f

/-- `b = solve(xpx_sub, xpy[:i])` of the low-memory path
(unitroot.py:160-161): on the nonsingular systems on which the source is
defined, numpy's `solve` returns the unique solution `(X'X)⁻¹ X'y`. -/
noncomputable def olsCoef (nobs c : ℕ) (f : ℕ → ℕ → ℝ) (g : ℕ → ℝ) :
    Fin c → ℝ :=
  (gram nobs c f)⁻¹ *ᵥ ((Xmat nobs c f)ᵀ *ᵥ vecOf nobs g)

/-- `ypy - b.T.dot(xpx_sub).dot(b)`, the residual sum of squares both paths
compute (unitroot.py:162 and 219). -/
noncomputable def olsRSS (nobs c : ℕ) (f : ℕ → ℕ → ℝ) (g : ℕ → ℝ) : ℝ :=
  vecOf nobs g ⬝ᵥ vecOf nobs g -
    olsCoef nobs c f g ⬝ᵥ (gram nobs c f *ᵥ olsCoef nobs c f g)

/-- `sigma2[i - m]` of the low-memory path at candidate lag `k`
(unitroot.py:159-163), `i = m + k`. -/
noncomputable def lmSigma2 (y : ℕ → ℝ) (maxlag nobs : ℕ) (tr : Trend) (k : ℕ) : ℝ :=
  olsRSS nobs (trendLength tr + 1 + k) (lmEntry y maxlag nobs tr)
    (lmLhs y maxlag nobs) / nobs

/-- `r[:i, :i]` (resp. any `ℕ → ℕ → ℝ` entry table) as a `c × c` matrix. -/
def subSquare (c : ℕ) (R : ℕ → ℕ → ℝ) : Matrix (Fin c) (Fin c) ℝ :=
  Matrix.of fun i j => R (i : ℕ) (j : ℕ)

/-- `qpy[:c]` where `qpy = q.T.dot(endog)` (unitroot.py:211). -/
noncomputable def qpyVec (nobs c : ℕ) (Q : ℕ → ℕ → ℝ) (g : ℕ → ℝ) :
    Fin c → ℝ :=
  fun j => ∑ t ∈ Finset.range nobs, Q t (j : ℕ) * g t

/-- `b = solve(r[:i, :i], qpy[:i])` of the standard path (unitroot.py:218):
numpy's `solve` on the (nonsingular triangular) system returns
`r[:i,:i]⁻¹ qpy[:i]`.  `Q`,`R` are the output of the external `qr`
collaborator, constrained by the QR-contract hypotheses of the theorems. -/
noncomputable def stdCoef (y : ℕ → ℝ) (maxlag nobs : ℕ) (tr : Trend)
    (Q R : ℕ → ℕ → ℝ) (k : ℕ) : Fin (trendLength tr + 1 + k) → ℝ :=
  (subSquare (trendLength tr + 1 + k) R)⁻¹ *ᵥ
    qpyVec nobs (trendLength tr + 1 + k) Q (stdLhs y maxlag)

/-- `sigma2[i - startlag] = (ypy - b.T.dot(xpx[:i, :i]).dot(b)) / nobs` of
the standard path at candidate lag `k` (unitroot.py:217-219),
`i = startlag + k`. -/
noncomputable def stdSigma2 (y : ℕ → ℝ) (maxlag nobs : ℕ) (tr : Trend)
    (Q R : ℕ → ℕ → ℝ) (k : ℕ) : ℝ :=
  (vecOf nobs (stdLhs y maxlag) ⬝ᵥ vecOf nobs (stdLhs y maxlag) -
    stdCoef y maxlag nobs tr Q R k ⬝ᵥ
      (gram nobs (trendLength tr + 1 + k) (stdEntry y maxlag tr) *ᵥ
        stdCoef y maxlag nobs tr Q R k)) / nobs

/-- `effective_max_lag = min(maxlag, matrix_rank(xpx) - startlag)`
(unitroot.py:213), `startlag = trendLength + 1`; `matrix_rank` is the
external collaborator, modelled by `Matrix.rank`. -/
noncomputable def stdEffLag (y : ℕ → ℝ) (maxlag nobs : ℕ) (tr : Trend) : ℕ :=
  min maxlag
    ((gram nobs (trendLength tr + 1 + maxlag) (stdEntry y maxlag tr)).rank -
      (trendLength tr + 1))

/-- The `(icbest, bestlag)` pair `_autolag_ols` returns for `method='aic'`:
`_select_best_ic('aic', nobs, sigma2, ...)` over candidates
`0..effective_max_lag`. -/
noncomputable def stdSelect (y : ℕ → ℝ) (maxlag nobs : ℕ) (tr : Trend)
    (Q R : ℕ → ℕ → ℝ) : ℝ × ℕ :=
  selectAIC nobs (stdEffLag y maxlag nobs tr) (stdSigma2 y maxlag nobs tr Q R)

/-- The `(icbest, bestlag)` pair `_autolag_ols_low_memory` returns for
`method='aic'`: `_select_best_ic('aic', nobs, sigma2, ...)` over candidates
`0..maxlag`. -/
noncomputable def lmSelect (y : ℕ → ℝ) (maxlag nobs : ℕ) (tr : Trend) : ℝ × ℕ :=
  selectAIC nobs maxlag (lmSigma2 y maxlag nobs tr)

/-- `b[-1]` of a coefficient vector (junk 0 for an impossible empty one). -/
noncomputable def lastEntry (c : ℕ) (b : Fin c → ℝ) : ℝ :=
  if h : 0 < c then b ⟨c - 1, by omega⟩ else 0

/-- `M[-1, -1]` of a square matrix (junk 0 for the empty one). -/
noncomputable def lastDiag (c : ℕ) (M : Matrix (Fin c) (Fin c) ℝ) : ℝ :=
  if h : 0 < c then M ⟨c - 1, by omega⟩ ⟨c - 1, by omega⟩ else 0

/-- The t-statistic the low-memory path stores for candidate `k` when
`method == 't-stat'`: `tstat[i - m] = b[-1] / sqrt(sigma2[i - m] *
inv(xpx_sub)[-1, -1])` (unitroot.py:164-167).  The loop runs from `i = m`,
so this OVERWRITES the `inf` that line 158 placed in `tstat[0]`. -/
noncomputable def lmTstatVal (y : ℕ → ℝ) (maxlag nobs : ℕ) (tr : Trend)
    (k : ℕ) : ℝ :=
  lastEntry (trendLength tr + 1 + k)
      (olsCoef nobs (trendLength tr + 1 + k) (lmEntry y maxlag nobs tr)
        (lmLhs y maxlag nobs)) /
    Real.sqrt (lmSigma2 y maxlag nobs tr k *
      lastDiag (trendLength tr + 1 + k)
        ((gram nobs (trendLength tr + 1 + k) (lmEntry y maxlag nobs tr))⁻¹))

/-- The t-stat array the low-memory path hands to `_select_best_ic`: every
entry `0..maxlag`, including entry 0, is a finite computed t-statistic. -/
noncomputable def lmTstatList (y : ℕ → ℝ) (maxlag nobs : ℕ) (tr : Trend) :
    List EReal :=
  (List.range (maxlag + 1)).map fun k =>
    ((lmTstatVal y maxlag nobs tr k : ℝ) : EReal)

/-- The t-statistic the standard path stores for candidate `k ≥ 1`
(unitroot.py:220-223): `b[-1] / sqrt(sigma2 * inv(xpx[:i, :i])[-1, -1])`;
the guard `i > startlag` skips candidate 0. -/
noncomputable def stdTstatVal (y : ℕ → ℝ) (maxlag nobs : ℕ) (tr : Trend)
    (Q R : ℕ → ℕ → ℝ) (k : ℕ) : ℝ :=
  lastEntry (trendLength tr + 1 + k) (stdCoef y maxlag nobs tr Q R k) /
    Real.sqrt (stdSigma2 y maxlag nobs tr Q R k *
      lastDiag (trendLength tr + 1 + k)
        ((gram nobs (trendLength tr + 1 + k) (stdEntry y maxlag tr))⁻¹))

/-- The t-stat array the standard path hands to `_select_best_ic`:
`tstat[0] = inf` (unitroot.py:216) survives because the loop body guards the
t-stat computation with `i > startlag`. -/
noncomputable def stdTstatList (y : ℕ → ℝ) (maxlag nobs : ℕ) (tr : Trend)
    (Q R : ℕ → ℕ → ℝ) : List EReal :=
  (⊤ : EReal) ::
    ((List.range (stdEffLag y maxlag nobs tr)).map fun i =>
      ((stdTstatVal y maxlag nobs tr Q R (i + 1) : ℝ) : EReal))

/-! ### Proof infrastructure relating the two design matrices.
For every candidate, the low-memory regressor block is the standard one with
the first `trendLength + 1` columns reversed and every column rescaled. -/

/-- The column permutation: the low-memory column `j` is the standard column
`sigmaNat j` (reversal of the leading `trendLength + 1` block, identity on
the lag columns). -/
def sigmaNat (tr : Trend) (j : ℕ) : ℕ :=
  if j ≤ trendLength tr then trendLength tr - j else j

/-- The scale of low-memory column `j` relative to standard column
`sigmaNat j`. -/
noncomputable def dScale (y : ℕ → ℝ) (maxlag nobs : ℕ) (tr : Trend) (j : ℕ) : ℝ :=
  if j = 0 then (Real.sqrt (levNorm2 y maxlag nobs))⁻¹
  else if j ≤ trendLength tr then lmScaleOf nobs (trendLength tr - j)
  else (Real.sqrt (dyNorm2 y (nobs + maxlag)))⁻¹

/-- The permutation-and-scaling matrix `M` with
`X_lowmem = X_std * M` columnwise. -/
noncomputable def permScaleM (y : ℕ → ℝ) (maxlag nobs : ℕ) (tr : Trend)
    (c : ℕ) : Matrix (Fin c) (Fin c) ℝ :=
  Matrix.of fun i j =>
    if (i : ℕ) = sigmaNat tr (j : ℕ) then dScale y maxlag nobs tr (j : ℕ) else 0

/-- The two-sided inverse of `permScaleM`. -/
noncomputable def permScaleMInv (y : ℕ → ℝ) (maxlag nobs : ℕ) (tr : Trend)
    (c : ℕ) : Matrix (Fin c) (Fin c) ℝ :=
  Matrix.of fun i j =>
    if (j : ℕ) = sigmaNat tr (i : ℕ) then (dScale y maxlag nobs tr (i : ℕ))⁻¹
    else 0

/-! ### Concrete inputs for witnesses and counterexamples -/

/-- The series `[3, 4, 5]` (so `nobs = 2`, `maxlag = 0`). -/
noncomputable def y3 : ℕ → ℝ := fun n =>
  if n = 0 then 3 else if n = 1 then 4 else if n = 2 then 5 else 0

/-- The `Q` factor of the reduced QR factorisation of the `2 × 1` design
matrix `[[3], [4]]` of `y3` under trend `'nc'`. -/
noncomputable def Q3 : ℕ → ℕ → ℝ := fun t _ => if t = 0 then 3 / 5 else 4 / 5

/-- The `R` factor of that factorisation: `[[5]]` padded with zeros. -/
noncomputable def R3 : ℕ → ℕ → ℝ := fun i j =>
  if i = 0 ∧ j = 0 then 5 else 0

/-- The series `[4, 3, 4]` (so `nobs = 2`, `maxlag = 0`): its level column
is almost orthogonal to its differenced series, so the single candidate
t-statistic is tiny. -/
noncomputable def y4 : ℕ → ℝ := fun n =>
  if n = 0 then 4 else if n = 1 then 3 else if n = 2 then 4 else 0

end Arch

namespace Arch

/-! ### Claims C1, C7, C8, C9: cache invalidation and setter validation -/

/-- Claim C1 (counterexample): the claim asserts that assigning a value equal
to the current one never discards the cached result, for `lags`, `trend`, and
every variant-specific option including `test_type`.  But the
`PhillipsPerron.test_type` setter resets unconditionally: on a concrete
instance whose `test_type` is already `tau` and whose cache holds a value,
re-assigning `tau` discards the cache. -/
theorem C1_testType_equal_discards_cache :
    (⟨⟨[], some 2, Trend.c, some (37 : ℚ)⟩, TType.tau⟩ : PPState ℚ).testType
        = TType.tau ∧
    (⟨⟨[], some 2, Trend.c, some (37 : ℚ)⟩, TType.tau⟩ : PPState ℚ).base.stat
        = some 37 ∧
    (setTestType (⟨⟨[], some 2, Trend.c, some (37 : ℚ)⟩, TType.tau⟩ : PPState ℚ)
        TType.tau).2.base.stat = none := by
  refine ⟨rfl, rfl, rfl⟩

/-- Claim C1 (amended): assigning a new valid value to `lags`, `trend`, or
`max_lags` discards the cached result, and assigning a value equal to the
current one leaves the state (hence the cache) untouched; the
`test_type`, `overlap`, `robust` and `debiased` setters discard the cached
result on every assignment, including assignment of the current value. -/
theorem C1_setter_invalidation {α : Type} :
    (∀ (s : URState α) (v : LagsValue), lagsValid v = true →
      lagsToOpt v = s.lags → setLags s v = (none, s)) ∧
    (∀ (s : URState α) (v : LagsValue), lagsValid v = true →
      lagsToOpt v ≠ s.lags →
      (setLags s v).1 = none ∧ (setLags s v).2.stat = none ∧
        (setLags s v).2.lags = lagsToOpt v) ∧
    (∀ (valid : List Trend) (s : URState α) (v : Trend), v ∈ valid →
      s.trend = v → setTrend valid s v = (none, s)) ∧
    (∀ (valid : List Trend) (s : URState α) (v : Trend), v ∈ valid →
      s.trend ≠ v →
      (setTrend valid s v).1 = none ∧ (setTrend valid s v).2.stat = none ∧
        (setTrend valid s v).2.trend = v) ∧
    (∀ (s : ADFState α) (v : Option ℤ), s.maxLags = v →
      setMaxLags s v = (none, s)) ∧
    (∀ (s : ADFState α) (v : Option ℤ), s.maxLags ≠ v →
      (setMaxLags s v).2.base.stat = none) ∧
    (∀ (s : PPState α) (v : TType), (setTestType s v).2.base.stat = none) ∧
    (∀ (s : VRState α) (v : Bool), (setOverlap s v).2.base.stat = none) ∧
    (∀ (s : VRState α) (v : Bool), (setRobust s v).2.base.stat = none) ∧
    (∀ (s : VRState α) (v : Bool), (setDebiased s v).2.base.stat = none) := by
  refine ⟨?_, ?_, ?_, ?_, ?_, ?_, ?_, ?_, ?_, ?_⟩
  · intro s v hv heq
    simp [setLags, hv, heq]
  · intro s v hv hne
    simp [setLags, hv, Ne.symm hne, reset]
  · intro valid s v hval heq
    simp [setTrend, hval, heq]
  · intro valid s v hval hne
    simp [setTrend, hval, hne, reset]
  · intro s v heq
    subst heq
    simp [setMaxLags]
  · intro s v hne
    simp [setMaxLags, hne, reset]
  · intro s v
    simp [setTestType, reset]
  · intro s v
    simp [setOverlap, reset]
  · intro s v
    simp [setRobust, reset]
  · intro s v
    simp [setDebiased, reset]

/-- Claim C1 (witness): concrete instantiations of every hypothesis of the
amended invalidation theorem. -/
theorem C1_setter_invalidation_witness :
    (setLags (⟨[], some 2, Trend.c, some (5 : ℚ)⟩ : URState ℚ) (.intV 2)
      = (none, ⟨[], some 2, Trend.c, some 5⟩)) ∧
    ((setLags (⟨[], some 2, Trend.c, some (5 : ℚ)⟩ : URState ℚ) (.intV 3)).2.stat
      = none) ∧
    (setTrend [Trend.nc, Trend.c] (⟨[], some 2, Trend.c, some (5 : ℚ)⟩ : URState ℚ)
      Trend.c = (none, ⟨[], some 2, Trend.c, some 5⟩)) ∧
    ((setTrend [Trend.nc, Trend.c] (⟨[], some 2, Trend.c, some (5 : ℚ)⟩ : URState ℚ)
      Trend.nc).2.stat = none) ∧
    (setMaxLags (⟨⟨[], some 2, Trend.c, some (5 : ℚ)⟩, some 7⟩ : ADFState ℚ)
      (some 7) = (none, ⟨⟨[], some 2, Trend.c, some 5⟩, some 7⟩)) ∧
    ((setMaxLags (⟨⟨[], some 2, Trend.c, some (5 : ℚ)⟩, some 7⟩ : ADFState ℚ)
      (some 8)).2.base.stat = none) := by
  have h := C1_setter_invalidation (α := ℚ)
  refine ⟨h.1 _ (.intV 2) (by decide) (by decide),
    (h.2.1 _ (.intV 3) (by decide) (by decide)).2.1,
    h.2.2.1 _ _ Trend.c (by decide) (by decide),
    (h.2.2.2.1 _ _ Trend.nc (by decide) (by decide)).2.1,
    h.2.2.2.2.1 _ (some 7) (by decide),
    h.2.2.2.2.2.1 _ (some 8) (by decide)⟩

/-- Claim C7: constructing a `VarianceRatio` with `lags < 2` raises
`ValueError` immediately, before any computation. -/
theorem C7_vr_lags_guard (y : List ℚ) (lags : ℤ) (trend : Trend)
    (debiased robust overlap : Bool) (h : lags < 2) :
    vrInit y lags trend debiased robust overlap = .error .valueError := by
  simp [vrInit, h]

/-- Claim C7 (witness): `lags = 1` is rejected at construction. -/
theorem C7_vr_lags_guard_witness :
    (1 : ℤ) < 2 ∧
      vrInit [] 1 Trend.c true true true = .error .valueError :=
  ⟨by decide, C7_vr_lags_guard [] 1 Trend.c true true true (by decide)⟩

/-- Claim C8: once a `VarianceRatio` is constructed with valid `lags`,
assigning `lags = 0` or `lags = 1` through the inherited setter does not
raise; the `lags ≥ 2` validation lives only in the constructor, and the
setter accepts every non-negative integer and `None`. -/
theorem C8_vr_setter_accepts_small_lags (y : List ℚ) (lags : ℤ) (trend : Trend)
    (debiased robust overlap : Bool) (s : VRState ℚ)
    (_h : vrInit y lags trend debiased robust overlap = .ok s) :
    (setLags s.base (.intV 0)).1 = none ∧
    (setLags s.base (.intV 1)).1 = none ∧
    (∀ z : ℤ, 0 ≤ z → (setLags s.base (.intV z)).1 = none) ∧
    (setLags s.base .noneV).1 = none := by
  refine ⟨?_, ?_, ?_, ?_⟩
  · simp [setLags, lagsValid]
  · simp [setLags, lagsValid]
  · intro z hz
    simp [setLags, lagsValid, hz]
  · simp [setLags, lagsValid]

/-- Claim C8 (witness): a concrete construction with `lags = 2` followed by
the problematic assignments. -/
theorem C8_vr_setter_accepts_small_lags_witness :
    ∃ s : VRState ℚ, vrInit [] 2 Trend.c true true true = .ok s ∧
      (setLags s.base (.intV 0)).1 = none ∧
      (setLags s.base (.intV 1)).1 = none := by
  refine ⟨_, rfl, ?_, ?_⟩
  · exact (C8_vr_setter_accepts_small_lags [] 2 Trend.c true true true _ rfl).1
  · exact (C8_vr_setter_accepts_small_lags [] 2 Trend.c true true true _ rfl).2.1

/-- Claim C9: an invalid assignment to `lags` (a negative integer, or a
non-integer value other than `None`) raises `ValueError` and returns the
state exactly as it was — the validation happens before the reset and before
the store, so neither the stored lag count nor the cache is touched. -/
theorem C9_lags_setter_invalid {α : Type} (s : URState α) (v : LagsValue)
    (h : lagsValid v = false) :
    setLags s v = (some .valueError, s) ∧
      (lagsValid v = false ↔ (v = .nonIntV ∨ ∃ z : ℤ, z < 0 ∧ v = .intV z)) := by
  constructor
  · simp [setLags, h]
  · constructor
    · intro _
      cases v with
      | noneV => simp [lagsValid] at h
      | intV z =>
          refine Or.inr ⟨z, ?_, rfl⟩
          simpa [lagsValid] using h
      | nonIntV => exact Or.inl rfl
    · intro _
      exact h

/-- Claim C9 (witness): assigning `-1` to a concrete instance raises and
leaves the instance (stored lags and cache included) unchanged. -/
theorem C9_lags_setter_invalid_witness :
    lagsValid (.intV (-1)) = false ∧
      setLags (⟨[], some 4, Trend.c, some (9 : ℚ)⟩ : URState ℚ) (.intV (-1))
        = (some .valueError, ⟨[], some 4, Trend.c, some 9⟩) :=
  ⟨by decide,
    (C9_lags_setter_invalid (⟨[], some 4, Trend.c, some (9 : ℚ)⟩ : URState ℚ)
      (.intV (-1)) (by decide)).1⟩

/-! ### Claim C2: `mackinnonp` boundary behaviour -/

/-- Claim C2: for every distribution family and regression accepted by
`mackinnonp` (i.e. whose table lookup succeeds and which passes the
cointegration guard), a statistic strictly above the tabulated `maxstat`
returns exactly 1.0 and a statistic strictly below the tabulated `minstat`
returns exactly 0.0.  The hypothesis `minstat ≤ maxstat` holds for every
tabulated row. -/
theorem C2_mackinnonp_boundary (lg normCdf : ℝ → ℝ)
    (tauT : Trend → ℕ → Option MKTable) (adfzT dfglsT : Trend → Option MKTable)
    (stat : ℝ) (reg : Trend) (nur : ℕ) (dist : DistType) (tbl : MKTable)
    (hguard : ¬(1 < nur ∧ dist ≠ .adfT))
    (htbl : mkLookup tauT adfzT dfglsT dist reg nur = some tbl)
    (horder : tbl.minstat ≤ tbl.maxstat) :
    (tbl.maxstat < stat →
      mackinnonp lg normCdf tauT adfzT dfglsT stat reg nur dist = .ok 1) ∧
    (stat < tbl.minstat →
      mackinnonp lg normCdf tauT adfzT dfglsT stat reg nur dist = .ok 0) := by
  constructor
  · intro habove
    simp [mackinnonp, hguard, htbl, habove]
  · intro hbelow
    have hnot : ¬ tbl.maxstat < stat :=
      not_lt.2 (le_of_lt (lt_of_lt_of_le hbelow horder))
    simp [mackinnonp, hguard, htbl, hnot, hbelow]

/-- Claim C2 (witness): a concrete table with `maxstat = 1`, `minstat = -1`;
the statistic 2 maps to exactly 1.0 and the statistic -2 to exactly 0.0. -/
theorem C2_mackinnonp_boundary_witness :
    ¬((1:ℕ) < 1 ∧ DistType.adfT ≠ DistType.adfT) ∧
    mkLookup (fun _ _ => some ⟨1, -1, 0, [], []⟩) (fun _ => none) (fun _ => none)
        DistType.adfT Trend.c 1 = some ⟨1, -1, 0, [], []⟩ ∧
    ((-1 : ℝ) ≤ 1) ∧
    mackinnonp id id (fun _ _ => some ⟨1, -1, 0, [], []⟩) (fun _ => none)
        (fun _ => none) 2 Trend.c 1 DistType.adfT = .ok 1 ∧
    mackinnonp id id (fun _ _ => some ⟨1, -1, 0, [], []⟩) (fun _ => none)
        (fun _ => none) (-2) Trend.c 1 DistType.adfT = .ok 0 := by
  refine ⟨by simp, rfl, by norm_num, ?_, ?_⟩
  · exact (C2_mackinnonp_boundary id id (fun _ _ => some ⟨1, -1, 0, [], []⟩)
      (fun _ => none) (fun _ => none) 2 Trend.c 1 DistType.adfT
      ⟨1, -1, 0, [], []⟩ (by simp) rfl (by norm_num)).1 (by norm_num)
  · exact (C2_mackinnonp_boundary id id (fun _ _ => some ⟨1, -1, 0, [], []⟩)
      (fun _ => none) (fun _ => none) (-2) Trend.c 1 DistType.adfT
      ⟨1, -1, 0, [], []⟩ (by simp) rfl (by norm_num)).2 (by norm_num)

/-! ### Lexicographic-minimum helper lemmas for `min(zip(crit, arange))` -/

theorem lexLE_refl (p : ℝ × ℕ) : LexLE p p := Or.inr ⟨rfl, le_refl _⟩

theorem lexLE_trans {p q r : ℝ × ℕ} (h1 : LexLE p q) (h2 : LexLE q r) :
    LexLE p r := by
  rcases h1 with h1 | ⟨e1, l1⟩ <;> rcases h2 with h2 | ⟨e2, l2⟩
  · exact Or.inl (lt_trans h1 h2)
  · exact Or.inl (e2 ▸ h1)
  · exact Or.inl (by rw [e1]; exact h2)
  · exact Or.inr ⟨e1.trans e2, le_trans l1 l2⟩

theorem pmin_cases (a b : ℝ × ℕ) : pmin a b = a ∨ pmin a b = b := by
  unfold pmin
  split
  · exact Or.inr rfl
  · exact Or.inl rfl

theorem pmin_lexLE_left (a b : ℝ × ℕ) : LexLE (pmin a b) a := by
  unfold pmin
  split
  · rename_i h
    rcases h with h | ⟨e, l⟩
    · exact Or.inl h
    · exact Or.inr ⟨e, le_of_lt l⟩
  · exact lexLE_refl a

theorem pmin_lexLE_right (a b : ℝ × ℕ) : LexLE (pmin a b) b := by
  unfold pmin
  split
  · exact lexLE_refl b
  · rename_i h
    push_neg at h
    obtain ⟨h1, h2⟩ := h
    rcases lt_or_eq_of_le h1 with hlt | heq
    · exact Or.inl hlt
    · exact Or.inr ⟨heq, h2 heq.symm⟩

theorem foldl_pmin_spec (l : List (ℝ × ℕ)) : ∀ a : ℝ × ℕ,
    (l.foldl pmin a = a ∨ l.foldl pmin a ∈ l) ∧
    LexLE (l.foldl pmin a) a ∧ ∀ x ∈ l, LexLE (l.foldl pmin a) x := by
  induction l with
  | nil =>
      intro a
      exact ⟨Or.inl rfl, lexLE_refl a, by simp⟩
  | cons b t ih =>
      intro a
      have h := ih (pmin a b)
      rw [List.foldl_cons]
      refine ⟨?_, ?_, ?_⟩
      · rcases h.1 with he | hm
        · rcases pmin_cases a b with h1 | h1
          · exact Or.inl (he.trans h1)
          · exact Or.inr (by rw [he, h1]; exact List.mem_cons_self _ _)
        · exact Or.inr (List.mem_cons_of_mem _ hm)
      · exact lexLE_trans h.2.1 (pmin_lexLE_left a b)
      · intro x hx
        rcases List.mem_cons.1 hx with rfl | hx
        · exact lexLE_trans h.2.1 (pmin_lexLE_right a x)
        · exact h.2.2 x hx

theorem lexFold_spec (l : List (ℝ × ℕ)) (h : l ≠ []) :
    lexFold l ∈ l ∧ ∀ x ∈ l, LexLE (lexFold l) x := by
  cases l with
  | nil => exact absurd rfl h
  | cons p t =>
      have h2 := foldl_pmin_spec t p
      rw [lexFold]
      refine ⟨?_, ?_⟩
      · rcases h2.1 with he | hm
        · rw [he]; exact List.mem_cons_self _ _
        · exact List.mem_cons_of_mem _ hm
      · intro x hx
        rcases List.mem_cons.1 hx with rfl | hx
        · exact h2.2.1
        · exact h2.2.2 x hx

/-! ### Claim C4: the AIC branch of `_select_best_ic` -/

/-- Claim C4: the `'aic'` branch scores candidate lag `k` as
`-2·llf(σ²ₖ) + 2·k` with `llf = -n/2·(log 2π + log σ² + 1)` and returns the
(score, lag) pair minimizing the score over lags `0..m`, breaking exact score
ties in favour of the lower lag index. -/
theorem C4_aic_selection (nobs : ℝ) (m : ℕ) (sigma2 : ℕ → ℝ) :
    ∃ L, L ≤ m ∧
      selectAIC nobs m sigma2 = (aicCrit nobs (sigma2 L) L, L) ∧
      (∀ k, k ≤ m → aicCrit nobs (sigma2 L) L ≤ aicCrit nobs (sigma2 k) k) ∧
      (∀ k, k ≤ m → aicCrit nobs (sigma2 k) k = aicCrit nobs (sigma2 L) L →
        L ≤ k) := by
  classical
  set f : ℕ → ℝ × ℕ := fun k => (aicCrit nobs (sigma2 k) k, k) with hf
  have hne : ((List.range (m + 1)).map f) ≠ [] := by simp
  obtain ⟨hmem, hall⟩ := lexFold_spec _ hne
  rw [List.mem_map] at hmem
  obtain ⟨L, hLmem, hLeq⟩ := hmem
  have hLm : L ≤ m := Nat.lt_succ_iff.1 (List.mem_range.1 hLmem)
  have key : ∀ k, k ≤ m →
      aicCrit nobs (sigma2 L) L < aicCrit nobs (sigma2 k) k ∨
      (aicCrit nobs (sigma2 L) L = aicCrit nobs (sigma2 k) k ∧ L ≤ k) := by
    intro k hk
    have hx : f k ∈ (List.range (m + 1)).map f :=
      List.mem_map_of_mem f (List.mem_range.2 (Nat.lt_succ_of_le hk))
    have hLex := hall _ hx
    rw [← hLeq] at hLex
    simpa [LexLE, hf] using hLex
  refine ⟨L, hLm, ?_, ?_, ?_⟩
  · rw [selectAIC, ← hLeq]
  · intro k hk
    rcases key k hk with h | ⟨e, _⟩
    · exact le_of_lt h
    · exact le_of_eq e
  · intro k hk he
    rcases key k hk with h | ⟨_, l⟩
    · exact absurd h (by rw [he]; exact lt_irrefl _)
    · exact l

/-! ### Claim C5: the t-stat branch of `_select_best_ic` -/

theorem stop_pos : (0 : ℝ) < stop := by
  rw [stop]; norm_num

theorem absE_coe (x : ℝ) : absE (x : EReal) = ((|x| : ℝ) : EReal) := by
  rw [absE, ← EReal.coe_neg]
  rcases le_total x (-x) with h | h
  · rw [max_eq_right (EReal.coe_le_coe_iff.2 h), abs_of_nonpos (by linarith)]
  · rw [max_eq_left (EReal.coe_le_coe_iff.2 h), abs_of_nonneg (by linarith)]

/-- Claim C5 (counterexample): with `tstat = [stop + 1, stop]` lag 0 strictly
exceeds the threshold while lag 1 only meets it exactly, yet the code (which
tests `abs(tstat) >= stop`) returns lag 1 — so "the largest lag whose
absolute t-statistic exceeds the threshold" (strictly) is not what is
returned. -/
theorem C5_threshold_not_strict :
    selectTstat [((stop + 1 : ℝ) : EReal), ((stop : ℝ) : EReal)]
        = some (((stop : ℝ) : EReal), 1) ∧
    (stop : EReal) < absE ((stop + 1 : ℝ) : EReal) ∧
    ¬ (stop : EReal) < absE ((stop : ℝ) : EReal) := by
  have hs : (0 : ℝ) ≤ stop := le_of_lt stop_pos
  have h0 : (stop : EReal) < absE ((stop + 1 : ℝ) : EReal) := by
    rw [absE_coe, abs_of_nonneg (by linarith)]
    exact EReal.coe_lt_coe_iff.2 (by linarith)
  have h1 : absE ((stop : ℝ) : EReal) = (stop : EReal) := by
    rw [absE_coe, abs_of_nonneg hs]
  have hcand : tstatCandidates
      [((stop + 1 : ℝ) : EReal), ((stop : ℝ) : EReal)] = [0, 1] := by
    rw [tstatCandidates]
    simp only [List.length_cons, List.length_nil]
    rw [show List.range (0 + 1 + 1) = [0, 1] from rfl]
    simp only [List.filter_cons, List.filter_nil, List.getD_cons_zero,
      List.getD_cons_succ, decide_eq_true_eq]
    rw [if_pos (le_of_lt h0), if_pos (le_of_eq h1.symm)]
  refine ⟨?_, h0, ?_⟩
  · rw [selectTstat, hcand]
    rfl
  · rw [h1]
    exact lt_irrefl _

/-- Claim C5 (amended): when at least one candidate lag's absolute
t-statistic is at least (rather than strictly above) the fixed threshold
`1.6448536269514722`, the `'t-stat'` branch returns the largest such lag
together with that lag's t-statistic as the criterion value. -/
theorem C5_tstat_selection (tstat : List EReal)
    (h : ∃ k, k < tstat.length ∧ (stop : EReal) ≤ absE (tstat.getD k 0)) :
    ∃ L, L < tstat.length ∧
      selectTstat tstat = some (tstat.getD L 0, L) ∧
      (stop : EReal) ≤ absE (tstat.getD L 0) ∧
      ∀ k, k < tstat.length → (stop : EReal) ≤ absE (tstat.getD k 0) →
        k ≤ L := by
  classical
  obtain ⟨k0, hk0, habs⟩ := h
  have hk0mem : k0 ∈ tstatCandidates tstat := by
    rw [tstatCandidates, List.mem_filter]
    exact ⟨List.mem_range.2 hk0, decide_eq_true habs⟩
  have hne : tstatCandidates tstat ≠ [] := List.ne_nil_of_mem hk0mem
  cases hmax : (tstatCandidates tstat).maximum with
  | bot => exact absurd (List.maximum_eq_bot.1 hmax) hne
  | coe L =>
      have hLspec := List.maximum_eq_coe_iff.1 hmax
      obtain ⟨hLmem, hLmax⟩ := hLspec
      have hLrange : L < tstat.length :=
        List.mem_range.1 (List.mem_filter.1 hLmem).1
      have hLpred : (stop : EReal) ≤ absE (tstat.getD L 0) :=
        of_decide_eq_true (List.mem_filter.1 hLmem).2
      refine ⟨L, hLrange, ?_, hLpred, ?_⟩
      · rw [selectTstat, hmax]
      · intro k hk hkpred
        exact hLmax k (by
          rw [tstatCandidates, List.mem_filter]
          exact ⟨List.mem_range.2 hk, decide_eq_true hkpred⟩)

/-- Claim C5 (witness): the single-entry list `[stop + 1]` satisfies the
non-empty-candidate hypothesis. -/
theorem C5_tstat_selection_witness :
    (∃ k, k < ([((stop + 1 : ℝ) : EReal)] : List EReal).length ∧
      (stop : EReal) ≤ absE (([((stop + 1 : ℝ) : EReal)] : List EReal).getD k 0)) ∧
    ∃ L, L < ([((stop + 1 : ℝ) : EReal)] : List EReal).length ∧
      selectTstat [((stop + 1 : ℝ) : EReal)]
        = some (([((stop + 1 : ℝ) : EReal)] : List EReal).getD L 0, L) ∧
      (stop : EReal) ≤ absE (([((stop + 1 : ℝ) : EReal)] : List EReal).getD L 0) ∧
      ∀ k, k < ([((stop + 1 : ℝ) : EReal)] : List EReal).length →
        (stop : EReal) ≤ absE (([((stop + 1 : ℝ) : EReal)] : List EReal).getD k 0) →
        k ≤ L := by
  have hs : (0 : ℝ) ≤ stop := le_of_lt stop_pos
  have habs : (stop : EReal) ≤ absE ((stop + 1 : ℝ) : EReal) := by
    rw [absE_coe, abs_of_nonneg (by linarith)]
    exact EReal.coe_le_coe_iff.2 (by linarith)
  have hh : ∃ k, k < ([((stop + 1 : ℝ) : EReal)] : List EReal).length ∧
      (stop : EReal) ≤ absE (([((stop + 1 : ℝ) : EReal)] : List EReal).getD k 0) :=
    ⟨0, by simp, by simpa using habs⟩
  exact ⟨hh, C5_tstat_selection _ hh⟩

/-! ### Claim C6: the default maximum lag of `_df_select_lags` -/

/-- Claim C6: when `max_lags` is unset, the helper's maximum lag equals the
Schwert default `ceil(12·(n/100)^(1/4))` clamped to
`[0, floor(n/2) - 1 - trend_length]`, where `trend_length` is the number of
deterministic trend regressors (0 for `'nc'`). -/
theorem C6_default_max_lags (n : ℕ) (t : Trend) :
    dfSelectLagsAutoMaxLags n t = specAutoMaxLags n t := by
  cases t <;>
    simp [dfSelectLagsAutoMaxLags, specAutoMaxLags, maxMaxLags, trendLength,
      trendStrLen, max_comm]

/-! ### Claim C3 infrastructure, part 1: on full-rank subsystems the
triangular QR solve of the standard path returns the unique solution of the
normal equations. -/

theorem xmat_eq_qr_mul (nobs p c : ℕ) (f Q R : ℕ → ℕ → ℝ) (hc : c ≤ p)
    (hQR : ∀ t < nobs, ∀ j < p, f t j = ∑ i ∈ Finset.range p, Q t i * R i j)
    (hR : ∀ i j : ℕ, j < i → R i j = 0) :
    Xmat nobs c f = Xmat nobs c Q * subSquare c R := by
  ext t j
  have ht : (t : ℕ) < nobs := t.2
  have hj : (j : ℕ) < p := lt_of_lt_of_le j.2 hc
  rw [Matrix.mul_apply]
  have hsum : ∑ i : Fin c, Xmat nobs c Q t i * subSquare c R i j
      = ∑ i ∈ Finset.range c, Q (t : ℕ) i * R i (j : ℕ) := by
    rw [← Fin.sum_univ_eq_sum_range (fun i => Q (t : ℕ) i * R i (j : ℕ)) c]
    rfl
  rw [hsum, show Xmat nobs c f t j = f (t : ℕ) (j : ℕ) from rfl,
    hQR (t : ℕ) ht (j : ℕ) hj]
  refine (Finset.sum_subset (Finset.range_subset.2 hc) ?_).symm
  intro x hx hnx
  have hjx : (j : ℕ) < x := by
    rw [Finset.mem_range] at hx
    rw [Finset.mem_range, not_lt] at hnx
    omega
  rw [hR x (j : ℕ) hjx, mul_zero]

theorem qmat_orthonormal (nobs p c : ℕ) (Q : ℕ → ℕ → ℝ) (hc : c ≤ p)
    (hQ : ∀ i < p, ∀ j < p,
      (∑ t ∈ Finset.range nobs, Q t i * Q t j) = if i = j then 1 else 0) :
    (Xmat nobs c Q)ᵀ * Xmat nobs c Q = 1 := by
  ext i j
  rw [Matrix.mul_apply]
  have hsum : ∑ t : Fin nobs, (Xmat nobs c Q)ᵀ i t * Xmat nobs c Q t j
      = ∑ t ∈ Finset.range nobs, Q t (i : ℕ) * Q t (j : ℕ) := by
    rw [← Fin.sum_univ_eq_sum_range (fun t => Q t (i : ℕ) * Q t (j : ℕ)) nobs]
    rfl
  rw [hsum, hQ _ (lt_of_lt_of_le i.2 hc) _ (lt_of_lt_of_le j.2 hc)]
  by_cases h : (i : ℕ) = (j : ℕ)
  · have : i = j := Fin.ext h
    subst this
    simp
  · rw [if_neg h, Matrix.one_apply_ne fun hij => h (congrArg Fin.val hij)]

theorem qr_coef_eq (nobs p c : ℕ) (f Q R : ℕ → ℕ → ℝ) (g : ℕ → ℝ) (hc : c ≤ p)
    (hQR : ∀ t < nobs, ∀ j < p, f t j = ∑ i ∈ Finset.range p, Q t i * R i j)
    (hQ : ∀ i < p, ∀ j < p,
      (∑ t ∈ Finset.range nobs, Q t i * Q t j) = if i = j then 1 else 0)
    (hR : ∀ i j : ℕ, j < i → R i j = 0)
    (hG : IsUnit (gram nobs c f)) :
    (subSquare c R)⁻¹ *ᵥ qpyVec nobs c Q g = olsCoef nobs c f g := by
  have hX : Xmat nobs c f = Xmat nobs c Q * subSquare c R :=
    xmat_eq_qr_mul nobs p c f Q R hc hQR hR
  have hQQ : (Xmat nobs c Q)ᵀ * Xmat nobs c Q = 1 :=
    qmat_orthonormal nobs p c Q hc hQ
  have hGR : gram nobs c f = (subSquare c R)ᵀ * subSquare c R := by
    rw [gram, hX, Matrix.transpose_mul]
    rw [Matrix.mul_assoc, ← Matrix.mul_assoc ((Xmat nobs c Q)ᵀ), hQQ,
      Matrix.one_mul]
  have hGdet : IsUnit (gram nobs c f).det :=
    (Matrix.isUnit_iff_isUnit_det _).1 hG
  have hRdet : IsUnit (subSquare c R).det := by
    have hdet2 : (gram nobs c f).det
        = (subSquare c R).det * (subSquare c R).det := by
      rw [hGR, Matrix.det_mul, Matrix.det_transpose]
    rw [hdet2] at hGdet
    exact isUnit_of_mul_isUnit_left hGdet
  have hqpy : qpyVec nobs c Q g = (Xmat nobs c Q)ᵀ *ᵥ vecOf nobs g := by
    funext j
    rw [qpyVec]
    rw [show ((Xmat nobs c Q)ᵀ *ᵥ vecOf nobs g) j
        = ∑ t : Fin nobs, Q (t : ℕ) (j : ℕ) * g (t : ℕ) from rfl]
    rw [← Fin.sum_univ_eq_sum_range (fun t => Q t (j : ℕ) * g t) nobs]
  have hkey : gram nobs c f *ᵥ ((subSquare c R)⁻¹ *ᵥ qpyVec nobs c Q g)
      = (Xmat nobs c f)ᵀ *ᵥ vecOf nobs g := by
    rw [Matrix.mulVec_mulVec, hGR,
      Matrix.mul_nonsing_inv_cancel_right _ _ hRdet, hqpy,
      Matrix.mulVec_mulVec, hX, Matrix.transpose_mul]
  rw [olsCoef, ← hkey, Matrix.mulVec_mulVec, Matrix.nonsing_inv_mul _ hGdet,
    Matrix.one_mulVec]

theorem stdSigma2_eq_ols (y : ℕ → ℝ) (maxlag nobs : ℕ) (tr : Trend)
    (Q R : ℕ → ℕ → ℝ) (k : ℕ) (hk : k ≤ maxlag)
    (hQR : ∀ t < nobs, ∀ j < trendLength tr + 1 + maxlag,
      stdEntry y maxlag tr t j
        = ∑ i ∈ Finset.range (trendLength tr + 1 + maxlag), Q t i * R i j)
    (hQ : ∀ i < trendLength tr + 1 + maxlag, ∀ j < trendLength tr + 1 + maxlag,
      (∑ t ∈ Finset.range nobs, Q t i * Q t j) = if i = j then 1 else 0)
    (hR : ∀ i j : ℕ, j < i → R i j = 0)
    (hG : IsUnit (gram nobs (trendLength tr + 1 + k) (stdEntry y maxlag tr))) :
    stdSigma2 y maxlag nobs tr Q R k =
      olsRSS nobs (trendLength tr + 1 + k) (stdEntry y maxlag tr)
        (stdLhs y maxlag) / nobs := by
  rw [stdSigma2, olsRSS, stdCoef,
    qr_coef_eq nobs (trendLength tr + 1 + maxlag) (trendLength tr + 1 + k)
      (stdEntry y maxlag tr) Q R (stdLhs y maxlag) (by omega) hQR hQ hR hG]

/-! ### Claim C3 infrastructure, part 2: the low-memory regressor block is
the standard one with the leading columns reversed and all columns
rescaled. -/

theorem sigmaNat_lt (tr : Trend) {c j : ℕ} (hc : trendLength tr + 1 ≤ c)
    (hj : j < c) : sigmaNat tr j < c := by
  unfold sigmaNat
  split <;> omega

theorem sigmaNat_invol (tr : Trend) (j : ℕ) :
    sigmaNat tr (sigmaNat tr j) = j := by
  unfold sigmaNat
  split_ifs <;> omega

theorem lm_entry_factor (y : ℕ → ℝ) (maxlag nobs : ℕ) (tr : Trend) (t j : ℕ) :
    lmEntry y maxlag nobs tr t j
      = dScale y maxlag nobs tr j * stdEntry y maxlag tr t (sigmaNat tr j) := by
  rcases Nat.eq_zero_or_pos j with rfl | hj0
  · have hσ : sigmaNat tr 0 = trendLength tr := by
      unfold sigmaNat
      simp
    rw [lmEntry, dScale, stdEntry, hσ, if_pos rfl, if_pos rfl,
      if_neg (lt_irrefl _), if_pos rfl, div_eq_mul_inv, mul_comm]
  · by_cases hjT : j ≤ trendLength tr
    · have h1 : sigmaNat tr j = trendLength tr - j := by
        unfold sigmaNat
        rw [if_pos hjT]
      have h2 : trendLength tr - j < trendLength tr := by omega
      rw [lmEntry, dScale, stdEntry, h1, if_neg (by omega), if_pos hjT,
        if_neg (by omega), if_pos hjT, if_pos h2]
    · have h1 : sigmaNat tr j = j := by
        unfold sigmaNat
        rw [if_neg hjT]
      rw [lmEntry, dScale, stdEntry, h1, if_neg (by omega), if_neg hjT,
        if_neg (by omega), if_neg hjT, if_neg (by omega), if_neg (by omega),
        div_eq_mul_inv, mul_comm]

theorem lm_X_factor (y : ℕ → ℝ) (maxlag nobs : ℕ) (tr : Trend) (c : ℕ)
    (hc : trendLength tr + 1 ≤ c) :
    Xmat nobs c (lmEntry y maxlag nobs tr)
      = Xmat nobs c (stdEntry y maxlag tr) * permScaleM y maxlag nobs tr c := by
  ext t j
  rw [Matrix.mul_apply]
  have hσlt : sigmaNat tr (j : ℕ) < c := sigmaNat_lt tr hc j.2
  rw [Finset.sum_eq_single (⟨sigmaNat tr (j : ℕ), hσlt⟩ : Fin c)]
  · rw [show permScaleM y maxlag nobs tr c ⟨sigmaNat tr (j : ℕ), hσlt⟩ j
        = if sigmaNat tr (j : ℕ) = sigmaNat tr (j : ℕ) then
            dScale y maxlag nobs tr (j : ℕ) else 0 from rfl,
      if_pos rfl,
      show Xmat nobs c (stdEntry y maxlag tr) t ⟨sigmaNat tr (j : ℕ), hσlt⟩
        = stdEntry y maxlag tr (t : ℕ) (sigmaNat tr (j : ℕ)) from rfl,
      show Xmat nobs c (lmEntry y maxlag nobs tr) t j
        = lmEntry y maxlag nobs tr (t : ℕ) (j : ℕ) from rfl,
      lm_entry_factor, mul_comm]
  · intro b _ hb
    have hbne : (b : ℕ) ≠ sigmaNat tr (j : ℕ) := fun h => hb (Fin.ext h)
    rw [show permScaleM y maxlag nobs tr c b j
        = if (b : ℕ) = sigmaNat tr (j : ℕ) then
            dScale y maxlag nobs tr (j : ℕ) else 0 from rfl,
      if_neg hbne, mul_zero]
  · intro h
    exact absurd (Finset.mem_univ _) h

theorem dScale_ne (y : ℕ → ℝ) (maxlag nobs : ℕ) (tr : Trend) (hn : 0 < nobs)
    (hdy : dyNorm2 y (nobs + maxlag) ≠ 0)
    (hlev : levNorm2 y maxlag nobs ≠ 0) (j : ℕ) :
    dScale y maxlag nobs tr j ≠ 0 := by
  have hlevpos : 0 < levNorm2 y maxlag nobs :=
    lt_of_le_of_ne (Finset.sum_nonneg fun i _ => sq_nonneg _) (Ne.symm hlev)
  have hdypos : 0 < dyNorm2 y (nobs + maxlag) :=
    lt_of_le_of_ne (Finset.sum_nonneg fun i _ => sq_nonneg _) (Ne.symm hdy)
  have hnpos : (0 : ℝ) < (nobs : ℝ) := by exact_mod_cast hn
  have hsn : Real.sqrt nobs ≠ 0 := by
    rw [Real.sqrt_ne_zero']
    exact hnpos
  unfold dScale lmScaleOf
  split_ifs
  · exact inv_ne_zero (by rw [Real.sqrt_ne_zero']; exact hlevpos)
  · exact inv_ne_zero hsn
  · exact div_ne_zero (by rw [Real.sqrt_ne_zero']; norm_num)
      (mul_ne_zero (ne_of_gt hnpos) hsn)
  · exact div_ne_zero (by rw [Real.sqrt_ne_zero']; norm_num)
      (mul_ne_zero (pow_ne_zero _ (ne_of_gt hnpos)) hsn)
  · exact inv_ne_zero (by rw [Real.sqrt_ne_zero']; exact hdypos)

theorem permScaleM_mul_inv (y : ℕ → ℝ) (maxlag nobs : ℕ) (tr : Trend)
    (c : ℕ) (hc : trendLength tr + 1 ≤ c)
    (hd : ∀ j : ℕ, dScale y maxlag nobs tr j ≠ 0) :
    permScaleM y maxlag nobs tr c * permScaleMInv y maxlag nobs tr c = 1 := by
  ext i j
  rw [Matrix.mul_apply]
  have hσi : sigmaNat tr (i : ℕ) < c := sigmaNat_lt tr hc i.2
  rw [Finset.sum_eq_single (⟨sigmaNat tr (i : ℕ), hσi⟩ : Fin c)]
  · rw [show permScaleM y maxlag nobs tr c i ⟨sigmaNat tr (i : ℕ), hσi⟩
        = if (i : ℕ) = sigmaNat tr (sigmaNat tr (i : ℕ)) then
            dScale y maxlag nobs tr (sigmaNat tr (i : ℕ)) else 0 from rfl,
      show permScaleMInv y maxlag nobs tr c ⟨sigmaNat tr (i : ℕ), hσi⟩ j
        = if (j : ℕ) = sigmaNat tr (sigmaNat tr (i : ℕ)) then
            (dScale y maxlag nobs tr (sigmaNat tr (i : ℕ)))⁻¹ else 0 from rfl,
      sigmaNat_invol, if_pos rfl]
    by_cases hij : (j : ℕ) = (i : ℕ)
    · have hji : j = i := Fin.ext hij
      rw [if_pos hij, mul_inv_cancel₀ (hd _), hji, Matrix.one_apply_eq]
    · rw [if_neg hij, mul_zero]
      exact (Matrix.one_apply_ne fun h => hij (congrArg Fin.val h.symm)).symm
  · intro b _ hb
    by_cases h : (i : ℕ) = sigmaNat tr (b : ℕ)
    · exfalso
      apply hb
      apply Fin.ext
      have hinv := congrArg (sigmaNat tr) h
      rw [sigmaNat_invol] at hinv
      exact hinv.symm
    · rw [show permScaleM y maxlag nobs tr c i b
          = if (i : ℕ) = sigmaNat tr (b : ℕ) then
              dScale y maxlag nobs tr (b : ℕ) else 0 from rfl,
        if_neg h, zero_mul]
  · intro h
    exact absurd (Finset.mem_univ _) h

theorem permScaleM_isUnit (y : ℕ → ℝ) (maxlag nobs : ℕ) (tr : Trend)
    (c : ℕ) (hc : trendLength tr + 1 ≤ c)
    (hd : ∀ j : ℕ, dScale y maxlag nobs tr j ≠ 0) :
    IsUnit (permScaleM y maxlag nobs tr c) := by
  have h := permScaleM_mul_inv y maxlag nobs tr c hc hd
  have hdet : (permScaleM y maxlag nobs tr c).det *
      (permScaleMInv y maxlag nobs tr c).det = 1 := by
    rw [← Matrix.det_mul, h, Matrix.det_one]
  exact (Matrix.isUnit_iff_isUnit_det _).2 (isUnit_of_mul_eq_one _ _ hdet)

/-! ### Claim C3 infrastructure, part 3: the residual sum of squares of the
normal-equations solve is invariant under an invertible column transform and
scales with the square of a regressand rescaling. -/

theorem rss_mul_scale (n c : ℕ) (X : Matrix (Fin n) (Fin c) ℝ)
    (M : Matrix (Fin c) (Fin c) ℝ) (v : Fin n → ℝ) (cs : ℝ)
    (hG : IsUnit (Xᵀ * X)) (hM : IsUnit M) :
    ((cs⁻¹ • v) ⬝ᵥ (cs⁻¹ • v) -
      (((X * M)ᵀ * (X * M))⁻¹ *ᵥ ((X * M)ᵀ *ᵥ (cs⁻¹ • v))) ⬝ᵥ
        (((X * M)ᵀ * (X * M)) *ᵥ
          (((X * M)ᵀ * (X * M))⁻¹ *ᵥ ((X * M)ᵀ *ᵥ (cs⁻¹ • v)))))
    = cs⁻¹ ^ 2 *
      (v ⬝ᵥ v - ((Xᵀ * X)⁻¹ *ᵥ (Xᵀ *ᵥ v)) ⬝ᵥ
        ((Xᵀ * X) *ᵥ ((Xᵀ * X)⁻¹ *ᵥ (Xᵀ *ᵥ v)))) := by
  set G := Xᵀ * X with hGdef
  set b := G⁻¹ *ᵥ (Xᵀ *ᵥ v) with hbdef
  have hGdet : IsUnit G.det := (Matrix.isUnit_iff_isUnit_det _).1 hG
  have hMdet : IsUnit M.det := (Matrix.isUnit_iff_isUnit_det _).1 hM
  have hMTdet : IsUnit Mᵀ.det := by
    rw [Matrix.det_transpose]
    exact hMdet
  have hGram : (X * M)ᵀ * (X * M) = Mᵀ * G * M := by
    rw [Matrix.transpose_mul, Matrix.mul_assoc, ← Matrix.mul_assoc Xᵀ X M,
      ← Matrix.mul_assoc Mᵀ (Xᵀ * X) M, hGdef]
  have hInv2 : (Mᵀ * G * M)⁻¹ = M⁻¹ * G⁻¹ * Mᵀ⁻¹ := by
    rw [Matrix.mul_inv_rev, Matrix.mul_inv_rev, ← Matrix.mul_assoc]
  have hb2 : ((X * M)ᵀ * (X * M))⁻¹ *ᵥ ((X * M)ᵀ *ᵥ (cs⁻¹ • v))
      = cs⁻¹ • (M⁻¹ *ᵥ b) := by
    rw [hGram, hInv2, Matrix.transpose_mul, Matrix.mulVec_smul,
      Matrix.mulVec_smul]
    congr 1
    rw [Matrix.mulVec_mulVec, ← Matrix.mul_assoc,
      Matrix.nonsing_inv_mul_cancel_right _ _ hMTdet, hbdef,
      ← Matrix.mulVec_mulVec, ← Matrix.mulVec_mulVec]
  have hvv : (cs⁻¹ • v) ⬝ᵥ (cs⁻¹ • v) = cs⁻¹ ^ 2 * (v ⬝ᵥ v) := by
    rw [Matrix.smul_dotProduct, Matrix.dotProduct_smul, smul_eq_mul,
      smul_eq_mul]
    ring
  have hQF : (cs⁻¹ • (M⁻¹ *ᵥ b)) ⬝ᵥ ((Mᵀ * G * M) *ᵥ (cs⁻¹ • (M⁻¹ *ᵥ b)))
      = cs⁻¹ ^ 2 * (b ⬝ᵥ (G *ᵥ b)) := by
    rw [Matrix.mulVec_smul, Matrix.smul_dotProduct, Matrix.dotProduct_smul,
      smul_eq_mul, smul_eq_mul]
    have h1 : (Mᵀ * G * M) *ᵥ (M⁻¹ *ᵥ b) = Mᵀ *ᵥ (G *ᵥ b) := by
      rw [Matrix.mulVec_mulVec, Matrix.mul_nonsing_inv_cancel_right _ _ hMdet,
        ← Matrix.mulVec_mulVec]
    have h2 : (M⁻¹ *ᵥ b) ⬝ᵥ (Mᵀ *ᵥ (G *ᵥ b)) = b ⬝ᵥ (G *ᵥ b) := by
      rw [Matrix.dotProduct_mulVec, Matrix.vecMul_transpose,
        Matrix.mulVec_mulVec, Matrix.mul_nonsing_inv _ hMdet,
        Matrix.one_mulVec]
    rw [h1, h2]
    ring
  rw [hb2, hGram, hvv, hQF]
  ring

theorem lmSigma2_eq_scaled (y : ℕ → ℝ) (maxlag nobs : ℕ) (tr : Trend) (k : ℕ)
    (hn : 0 < nobs) (hdy : dyNorm2 y (nobs + maxlag) ≠ 0)
    (hlev : levNorm2 y maxlag nobs ≠ 0)
    (hG : IsUnit (gram nobs (trendLength tr + 1 + k) (stdEntry y maxlag tr))) :
    lmSigma2 y maxlag nobs tr k
      = (dyNorm2 y (nobs + maxlag))⁻¹ *
        (olsRSS nobs (trendLength tr + 1 + k) (stdEntry y maxlag tr)
          (stdLhs y maxlag) / nobs) := by
  have hc : trendLength tr + 1 ≤ trendLength tr + 1 + k := by omega
  have hX := lm_X_factor y maxlag nobs tr (trendLength tr + 1 + k) hc
  have hd := dScale_ne y maxlag nobs tr hn hdy hlev
  have hM := permScaleM_isUnit y maxlag nobs tr (trendLength tr + 1 + k) hc hd
  have hv : vecOf nobs (lmLhs y maxlag nobs)
      = (Real.sqrt (dyNorm2 y (nobs + maxlag)))⁻¹ •
          vecOf nobs (stdLhs y maxlag) := by
    funext t
    simp only [vecOf, lmLhs, stdLhs, Pi.smul_apply, smul_eq_mul]
    rw [div_eq_inv_mul]
  have hdyn : (0 : ℝ) ≤ dyNorm2 y (nobs + maxlag) :=
    Finset.sum_nonneg fun i _ => sq_nonneg _
  have hsq : (Real.sqrt (dyNorm2 y (nobs + maxlag)))⁻¹ ^ 2
      = (dyNorm2 y (nobs + maxlag))⁻¹ := by
    rw [inv_pow, Real.sq_sqrt hdyn]
  rw [gram] at hG
  simp only [lmSigma2, olsRSS, olsCoef, gram]
  rw [hX, hv, rss_mul_scale nobs (trendLength tr + 1 + k)
    (Xmat nobs (trendLength tr + 1 + k) (stdEntry y maxlag tr))
    (permScaleM y maxlag nobs tr (trendLength tr + 1 + k))
    (vecOf nobs (stdLhs y maxlag))
    (Real.sqrt (dyNorm2 y (nobs + maxlag))) hG hM, hsq, mul_div_assoc]

/-! ### Claim C3 infrastructure, part 4: a constant criterion shift changes
the returned `icbest` by that constant and the returned lag not at all. -/

theorem pmin_shift (C : ℝ) (a b : ℝ × ℕ) :
    pmin (a.1 + C, a.2) (b.1 + C, b.2) = ((pmin a b).1 + C, (pmin a b).2) := by
  have hiff : (b.1 + C < a.1 + C ∨ (b.1 + C = a.1 + C ∧ b.2 < a.2)) ↔
      (b.1 < a.1 ∨ (b.1 = a.1 ∧ b.2 < a.2)) := by
    constructor
    · rintro (h | ⟨e, l⟩)
      · exact Or.inl (by linarith)
      · exact Or.inr ⟨by linarith, l⟩
    · rintro (h | ⟨e, l⟩)
      · exact Or.inl (by linarith)
      · exact Or.inr ⟨by linarith, l⟩
  unfold pmin
  by_cases h : b.1 < a.1 ∨ (b.1 = a.1 ∧ b.2 < a.2)
  · rw [if_pos (hiff.2 h), if_pos h]
  · rw [if_neg (fun hh => h (hiff.1 hh)), if_neg h]

theorem foldl_pmin_shift (C : ℝ) (l : List (ℝ × ℕ)) : ∀ a : ℝ × ℕ,
    (l.map fun p => (p.1 + C, p.2)).foldl pmin (a.1 + C, a.2)
      = ((l.foldl pmin a).1 + C, (l.foldl pmin a).2) := by
  induction l with
  | nil =>
      intro a
      simp
  | cons b t ih =>
      intro a
      simp only [List.map_cons, List.foldl_cons]
      rw [pmin_shift]
      exact ih (pmin a b)

theorem selectAIC_shift (nobs : ℝ) (m : ℕ) (σa σb : ℕ → ℝ) (C : ℝ)
    (h : ∀ k, k ≤ m → aicCrit nobs (σb k) k = aicCrit nobs (σa k) k + C) :
    selectAIC nobs m σb
      = ((selectAIC nobs m σa).1 + C, (selectAIC nobs m σa).2) := by
  rw [selectAIC, selectAIC]
  have hmap : (List.range (m + 1)).map (fun k => (aicCrit nobs (σb k) k, k))
      = ((List.range (m + 1)).map fun k => (aicCrit nobs (σa k) k, k)).map
          fun p => (p.1 + C, p.2) := by
    rw [List.map_map]
    refine List.map_congr_left ?_
    intro k hk
    have hkm : k ≤ m := Nat.lt_succ_iff.1 (List.mem_range.1 hk)
    simp [h k hkm]
  rw [hmap]
  cases hl : (List.range (m + 1)).map (fun k => (aicCrit nobs (σa k) k, k)) with
  | nil => exact absurd hl (by simp)
  | cons p t =>
      simp only [List.map_cons, lexFold]
      exact foldl_pmin_shift C t p

theorem stdEffLag_eq (y : ℕ → ℝ) (maxlag nobs : ℕ) (tr : Trend)
    (hInv : IsUnit (gram nobs (trendLength tr + 1 + maxlag)
      (stdEntry y maxlag tr))) :
    stdEffLag y maxlag nobs tr = maxlag := by
  rw [stdEffLag, Matrix.rank_of_isUnit _ hInv, Fintype.card_fin,
    Nat.add_sub_cancel_left, min_self]

/-! ### Claim C3: the two lag-selection paths under `method='aic'` -/

/-- Claim C3 (amended): under the collaborator contracts (`Q`,`R` a reduced
QR factorisation of the standard design matrix, `solve`/`inv` exact on
nonsingular systems), whenever every candidate subsystem is nonsingular and
no candidate fits perfectly, the low-memory path selects exactly the same
integer lag as the standard path; but the criterion values are NOT close —
they differ by the data-dependent constant `nobs · log(Δy'Δy)` introduced by
the low-memory path's normalisation of `deltay`. -/
theorem C3_selection_paths (y : ℕ → ℝ) (maxlag nobs : ℕ) (tr : Trend)
    (Q R : ℕ → ℕ → ℝ) (hn : 0 < nobs)
    (hQR : ∀ t < nobs, ∀ j < trendLength tr + 1 + maxlag,
      stdEntry y maxlag tr t j
        = ∑ i ∈ Finset.range (trendLength tr + 1 + maxlag), Q t i * R i j)
    (hQ : ∀ i < trendLength tr + 1 + maxlag, ∀ j < trendLength tr + 1 + maxlag,
      (∑ t ∈ Finset.range nobs, Q t i * Q t j) = if i = j then 1 else 0)
    (hR : ∀ i j : ℕ, j < i → R i j = 0)
    (hInv : ∀ k, k ≤ maxlag →
      IsUnit (gram nobs (trendLength tr + 1 + k) (stdEntry y maxlag tr)))
    (hσ : ∀ k, k ≤ maxlag → stdSigma2 y maxlag nobs tr Q R k ≠ 0)
    (hdy : dyNorm2 y (nobs + maxlag) ≠ 0)
    (hlev : levNorm2 y maxlag nobs ≠ 0) :
    (lmSelect y maxlag nobs tr).2 = (stdSelect y maxlag nobs tr Q R).2 ∧
    (stdSelect y maxlag nobs tr Q R).1
      = (lmSelect y maxlag nobs tr).1
        + nobs * Real.log (dyNorm2 y (nobs + maxlag)) := by
  have heff : stdEffLag y maxlag nobs tr = maxlag :=
    stdEffLag_eq y maxlag nobs tr (hInv maxlag le_rfl)
  have hrel : ∀ k, k ≤ maxlag → lmSigma2 y maxlag nobs tr k
      = (dyNorm2 y (nobs + maxlag))⁻¹ * stdSigma2 y maxlag nobs tr Q R k := by
    intro k hk
    rw [lmSigma2_eq_scaled y maxlag nobs tr k hn hdy hlev (hInv k hk),
      ← stdSigma2_eq_ols y maxlag nobs tr Q R k hk hQR hQ hR (hInv k hk)]
  have hcrit : ∀ k, k ≤ maxlag →
      aicCrit nobs (lmSigma2 y maxlag nobs tr k) k
        = aicCrit nobs (stdSigma2 y maxlag nobs tr Q R k) k
          + nobs * Real.log (dyNorm2 y (nobs + maxlag))⁻¹ := by
    intro k hk
    rw [hrel k hk]
    simp only [aicCrit, llf]
    rw [Real.log_mul (inv_ne_zero hdy) (hσ k hk)]
    ring
  have hshift := selectAIC_shift nobs maxlag
    (stdSigma2 y maxlag nobs tr Q R) (lmSigma2 y maxlag nobs tr)
    (nobs * Real.log (dyNorm2 y (nobs + maxlag))⁻¹) hcrit
  have hstd : stdSelect y maxlag nobs tr Q R
      = selectAIC nobs maxlag (stdSigma2 y maxlag nobs tr Q R) := by
    rw [stdSelect, heff]
  have hlm : lmSelect y maxlag nobs tr
      = selectAIC nobs maxlag (lmSigma2 y maxlag nobs tr) := rfl
  constructor
  · rw [hlm, hstd, hshift]
  · rw [hlm, hstd, hshift, Real.log_inv]
    ring

/-! ### Claim C10: t-stat selection and the `tstat[0] = inf` initialisation -/

/-- Claim C10 (amended, standard path): in `_autolag_ols` the guard
`i > startlag` leaves `tstat[0] = inf` in place, so under `method='t-stat'`
the candidate set always contains lag 0: selection succeeds and returns a lag
in `[0, effective_max_lag]`, whatever the computed t-statistics are. -/
theorem C10_std_tstat_selection_total (y : ℕ → ℝ) (maxlag nobs : ℕ)
    (tr : Trend) (Q R : ℕ → ℕ → ℝ) :
    ∃ v L, selectTstat (stdTstatList y maxlag nobs tr Q R) = some (v, L) ∧
      L ≤ stdEffLag y maxlag nobs tr := by
  classical
  have hlen : (stdTstatList y maxlag nobs tr Q R).length
      = stdEffLag y maxlag nobs tr + 1 := by
    simp [stdTstatList]
  have h0 : (stop : EReal) ≤
      absE ((stdTstatList y maxlag nobs tr Q R).getD 0 0) := by
    have hget : (stdTstatList y maxlag nobs tr Q R).getD 0 0 = (⊤ : EReal) := by
      simp [stdTstatList]
    rw [hget, absE]
    exact le_trans le_top (le_max_left _ _)
  have hmem : 0 ∈ tstatCandidates (stdTstatList y maxlag nobs tr Q R) := by
    rw [tstatCandidates, List.mem_filter]
    refine ⟨?_, decide_eq_true h0⟩
    rw [List.mem_range, hlen]
    omega
  have hne : tstatCandidates (stdTstatList y maxlag nobs tr Q R) ≠ [] :=
    List.ne_nil_of_mem hmem
  cases hmax : (tstatCandidates (stdTstatList y maxlag nobs tr Q R)).maximum with
  | bot => exact absurd (List.maximum_eq_bot.1 hmax) hne
  | coe L =>
      obtain ⟨hLmem, _⟩ := List.maximum_eq_coe_iff.1 hmax
      have hLlen : L < (stdTstatList y maxlag nobs tr Q R).length :=
        List.mem_range.1 (List.mem_filter.1 hLmem).1
      rw [hlen] at hLlen
      refine ⟨(stdTstatList y maxlag nobs tr Q R).getD L 0, L, ?_, by omega⟩
      rw [selectTstat, hmax]

/-! ### Concrete evaluation helpers -/

theorem Xmat_apply (nobs c : ℕ) (f : ℕ → ℕ → ℝ) (t : Fin nobs) (j : Fin c) :
    Xmat nobs c f t j = f (t : ℕ) (j : ℕ) := rfl

theorem subSquare_apply (c : ℕ) (R : ℕ → ℕ → ℝ) (i j : Fin c) :
    subSquare c R i j = R (i : ℕ) (j : ℕ) := rfl

theorem vecOf_apply (nobs : ℕ) (g : ℕ → ℝ) (t : Fin nobs) :
    vecOf nobs g t = g (t : ℕ) := rfl

theorem inv_fin_one_apply (A : Matrix (Fin 1) (Fin 1) ℝ) (i j : Fin 1) :
    A⁻¹ i j = (A 0 0)⁻¹ := by
  obtain rfl : i = 0 := Subsingleton.elim i 0
  obtain rfl : j = 0 := Subsingleton.elim j 0
  rw [Matrix.inv_def, Matrix.adjugate_fin_one, Matrix.det_fin_one,
    Ring.inverse_eq_inv']
  simp

theorem matrix_inv_one (n : ℕ) : (1 : Matrix (Fin n) (Fin n) ℝ)⁻¹ = 1 :=
  Matrix.inv_eq_left_inv (by simp)

theorem sqrt25_eq : Real.sqrt 25 = 5 := by
  rw [show (25 : ℝ) = 5 ^ 2 by norm_num, Real.sqrt_sq (by norm_num : (0:ℝ) ≤ 5)]

theorem sqrt2_mul_self : Real.sqrt 2 * Real.sqrt 2 = 2 :=
  Real.mul_self_sqrt (by norm_num)

theorem sqrt2_ne_zero : Real.sqrt 2 ≠ 0 := by
  rw [Real.sqrt_ne_zero']
  norm_num

theorem sqrt2_inv_sq : (Real.sqrt 2)⁻¹ ^ 2 = 1 / 2 := by
  rw [sq, ← mul_inv, sqrt2_mul_self]
  norm_num

theorem one_le_sqrt2 : 1 ≤ Real.sqrt 2 := by
  rw [show (1 : ℝ) = Real.sqrt 1 by simp]
  exact Real.sqrt_le_sqrt (by norm_num)

theorem selectAIC_zero (nobs : ℝ) (σf : ℕ → ℝ) :
    selectAIC nobs 0 σf = (aicCrit nobs (σf 0) 0, 0) := by
  rw [selectAIC, show List.range (0 + 1) = [0] from rfl]
  simp [lexFold]

/-! ### Evaluation of the low-memory path on `y4 = [4, 3, 4]`
(`maxlag = 0`, `nobs = 2`, trend `'nc'`). -/

theorem y4_lev : levNorm2 y4 0 2 = 25 := by
  simp [levNorm2, Finset.sum_range_succ, y4]
  norm_num

theorem y4_dyn : dyNorm2 y4 2 = 2 := by
  simp [dyNorm2, dy, Finset.sum_range_succ, y4]
  norm_num

theorem y4_lm_entry (t : ℕ) : lmEntry y4 0 2 Trend.nc t 0 = y4 t / 5 := by
  rw [lmEntry, if_pos rfl, Nat.zero_add, y4_lev, sqrt25_eq]

theorem y4_lm_lhs (t : ℕ) : lmLhs y4 0 2 t = dy y4 t / Real.sqrt 2 := by
  rw [lmLhs, Nat.zero_add, show (2 + 0 : ℕ) = 2 from rfl, y4_dyn]

theorem y4_lm_gram : gram 2 1 (lmEntry y4 0 2 Trend.nc) = 1 := by
  ext i j
  obtain rfl : i = 0 := Subsingleton.elim i 0
  obtain rfl : j = 0 := Subsingleton.elim j 0
  rw [gram, Matrix.mul_apply, Fin.sum_univ_two, Matrix.one_apply_eq]
  simp only [Matrix.transpose_apply, Xmat_apply, Fin.val_zero, Fin.val_one]
  rw [y4_lm_entry, y4_lm_entry]
  simp [y4]
  norm_num

theorem y4_lm_coef :
    olsCoef 2 1 (lmEntry y4 0 2 Trend.nc) (lmLhs y4 0 2)
      = fun _ => -((Real.sqrt 2)⁻¹ / 5) := by
  funext i
  obtain rfl : i = 0 := Subsingleton.elim i 0
  rw [olsCoef, y4_lm_gram, matrix_inv_one, Matrix.one_mulVec]
  simp only [Matrix.mulVec, dotProduct, Fin.sum_univ_two,
    Matrix.transpose_apply, Xmat_apply, vecOf_apply, Fin.val_zero, Fin.val_one]
  rw [y4_lm_entry, y4_lm_entry, y4_lm_lhs, y4_lm_lhs]
  simp only [dy, y4]
  norm_num
  ring

theorem y4_lm_sigma2 : lmSigma2 y4 0 2 Trend.nc 0 = 49 / 100 := by
  have hcast : ((2 : ℕ) : ℝ) = 2 := by norm_num
  rw [lmSigma2, olsRSS]
  rw [show trendLength Trend.nc + 1 + 0 = 1 from rfl]
  rw [y4_lm_coef, y4_lm_gram, Matrix.one_mulVec]
  simp only [dotProduct, Fin.sum_univ_two, Fin.sum_univ_one, vecOf_apply,
    Fin.val_zero, Fin.val_one]
  rw [y4_lm_lhs, y4_lm_lhs]
  simp only [dy, y4, hcast]
  norm_num
  field_simp
  nlinarith [sqrt2_mul_self, Real.sqrt_nonneg 2]

theorem y4_tstat_abs_lt : |lmTstatVal y4 0 2 Trend.nc 0| < stop := by
  have h1 : lmTstatVal y4 0 2 Trend.nc 0
      = -((Real.sqrt 2)⁻¹ / 5) / (7 / 10) := by
    show lastEntry 1 (olsCoef 2 1 (lmEntry y4 0 2 Trend.nc) (lmLhs y4 0 2)) /
        Real.sqrt (lmSigma2 y4 0 2 Trend.nc 0 *
          lastDiag 1 ((gram 2 1 (lmEntry y4 0 2 Trend.nc))⁻¹))
      = -((Real.sqrt 2)⁻¹ / 5) / (7 / 10)
    rw [y4_lm_coef, y4_lm_sigma2, y4_lm_gram, matrix_inv_one]
    rw [show lastEntry 1 (fun _ => -((Real.sqrt 2)⁻¹ / 5))
        = -((Real.sqrt 2)⁻¹ / 5) from rfl]
    rw [show lastDiag 1 (1 : Matrix (Fin 1) (Fin 1) ℝ) = 1 by
      rw [lastDiag, dif_pos (by norm_num : 0 < 1), Matrix.one_apply_eq]]
    rw [mul_one, show (49 / 100 : ℝ) = (7 / 10) ^ 2 by norm_num,
      Real.sqrt_sq (by norm_num : (0:ℝ) ≤ 7 / 10)]
  rw [h1, abs_div, abs_neg]
  have hnn : (0 : ℝ) ≤ (Real.sqrt 2)⁻¹ / 5 := by positivity
  rw [abs_of_nonneg hnn, abs_of_nonneg (by norm_num : (0:ℝ) ≤ 7 / 10)]
  have hle : (Real.sqrt 2)⁻¹ ≤ 1 := by
    rw [inv_le_one_iff₀]
    right
    exact one_le_sqrt2
  have hb : (Real.sqrt 2)⁻¹ / 5 / (7 / 10) ≤ 1 / 5 / (7 / 10) := by gcongr
  rw [stop]
  have : (1 : ℝ) / 5 / (7 / 10) < 1.6448536269514722 := by norm_num
  linarith

/-- Claim C10 (counterexample): on `y4 = [4, 3, 4]` with `maxlag = 0` and
trend `'nc'` under `method='t-stat'`, the low-memory path's t-stat array is a
single FINITE value (the `inf` written to `tstat[0]` before the loop is
overwritten at `i = m`), whose magnitude `√2/7 ≈ 0.20` is below the
threshold, so the candidate set is empty and selection fails (`none` models
the exception `max(argwhere(...))` raises) — refuting "selection always
succeeds". -/
theorem C10_lm_tstat_can_fail :
    selectTstat (lmTstatList y4 0 2 Trend.nc) = none ∧
    lmTstatList y4 0 2 Trend.nc
      = [((lmTstatVal y4 0 2 Trend.nc 0 : ℝ) : EReal)] := by
  have hlist : lmTstatList y4 0 2 Trend.nc
      = [((lmTstatVal y4 0 2 Trend.nc 0 : ℝ) : EReal)] := by
    rw [lmTstatList, show List.range (0 + 1) = [0] from rfl]
    simp
  have habs : ¬ ((stop : EReal) ≤
      absE (((lmTstatVal y4 0 2 Trend.nc 0 : ℝ) : EReal))) := by
    rw [absE_coe]
    exact fun h => absurd (EReal.coe_le_coe_iff.1 h) (not_le.2 y4_tstat_abs_lt)
  have hcand : tstatCandidates (lmTstatList y4 0 2 Trend.nc) = [] := by
    rw [tstatCandidates, hlist]
    simp only [List.length_cons, List.length_nil]
    rw [show List.range (0 + 1) = [0] from rfl]
    simp only [List.filter_cons, List.filter_nil, List.getD_cons_zero]
    rw [decide_eq_false habs]
    simp
  refine ⟨?_, hlist⟩
  rw [selectTstat, hcand]
  rfl

/-! ### Evaluation of both paths on `y3 = [3, 4, 5]`
(`maxlag = 0`, `nobs = 2`, trend `'nc'`, with the explicit QR factors
`Q3`, `R3` of the standard design matrix `[[3], [4]]`). -/

theorem y3_stdEntry (t : ℕ) : stdEntry y3 0 Trend.nc t 0 = y3 t := by
  rw [stdEntry, if_neg (by simp [trendLength]), if_pos (by simp [trendLength]),
    Nat.zero_add]

theorem y3_gram_std_entry : gram 2 1 (stdEntry y3 0 Trend.nc) 0 0 = 25 := by
  rw [gram, Matrix.mul_apply, Fin.sum_univ_two]
  simp only [Matrix.transpose_apply, Xmat_apply, Fin.val_zero, Fin.val_one]
  rw [y3_stdEntry, y3_stdEntry]
  simp [y3]
  norm_num

theorem y3_gram_std_isUnit : IsUnit (gram 2 1 (stdEntry y3 0 Trend.nc)) := by
  rw [Matrix.isUnit_iff_isUnit_det, Matrix.det_fin_one, y3_gram_std_entry]
  exact isUnit_iff_ne_zero.2 (by norm_num)

theorem y3_qpy : qpyVec 2 1 Q3 (stdLhs y3 0) = fun _ => 7 / 5 := by
  funext j
  rw [qpyVec]
  simp [Finset.sum_range_succ, Q3, stdLhs, dy, y3]
  norm_num

theorem y3_stdCoef : stdCoef y3 0 2 Trend.nc Q3 R3 0 = fun _ => 7 / 25 := by
  show (subSquare 1 R3)⁻¹ *ᵥ qpyVec 2 1 Q3 (stdLhs y3 0)
    = fun _ : Fin 1 => (7 : ℝ) / 25
  funext i
  obtain rfl : i = 0 := Subsingleton.elim i 0
  rw [y3_qpy]
  simp only [Matrix.mulVec, dotProduct, Fin.sum_univ_one]
  rw [inv_fin_one_apply, subSquare_apply]
  simp [R3]
  norm_num

theorem y3_sigma_std : stdSigma2 y3 0 2 Trend.nc Q3 R3 0 = 1 / 50 := by
  rw [stdSigma2, y3_stdCoef]
  rw [show trendLength Trend.nc + 1 + 0 = 1 from rfl]
  simp only [Matrix.mulVec, dotProduct, Fin.sum_univ_two, Fin.sum_univ_one,
    vecOf_apply, Fin.val_zero, Fin.val_one]
  rw [y3_gram_std_entry]
  simp [stdLhs, dy, y3]
  norm_num

theorem y3_lev : levNorm2 y3 0 2 = 25 := by
  simp [levNorm2, Finset.sum_range_succ, y3]
  norm_num

theorem y3_dyn : dyNorm2 y3 2 = 2 := by
  simp [dyNorm2, dy, Finset.sum_range_succ, y3]
  norm_num

theorem y3_lm_entry (t : ℕ) : lmEntry y3 0 2 Trend.nc t 0 = y3 t / 5 := by
  rw [lmEntry, if_pos rfl, Nat.zero_add, y3_lev, sqrt25_eq]

theorem y3_lm_lhs (t : ℕ) : lmLhs y3 0 2 t = dy y3 t / Real.sqrt 2 := by
  rw [lmLhs, Nat.zero_add, show (2 + 0 : ℕ) = 2 from rfl, y3_dyn]

theorem y3_lm_gram : gram 2 1 (lmEntry y3 0 2 Trend.nc) = 1 := by
  ext i j
  obtain rfl : i = 0 := Subsingleton.elim i 0
  obtain rfl : j = 0 := Subsingleton.elim j 0
  rw [gram, Matrix.mul_apply, Fin.sum_univ_two, Matrix.one_apply_eq]
  simp only [Matrix.transpose_apply, Xmat_apply, Fin.val_zero, Fin.val_one]
  rw [y3_lm_entry, y3_lm_entry]
  simp [y3]
  norm_num

theorem y3_lm_coef :
    olsCoef 2 1 (lmEntry y3 0 2 Trend.nc) (lmLhs y3 0 2)
      = fun _ => 7 * (Real.sqrt 2)⁻¹ / 5 := by
  funext i
  obtain rfl : i = 0 := Subsingleton.elim i 0
  rw [olsCoef, y3_lm_gram, matrix_inv_one, Matrix.one_mulVec]
  simp only [Matrix.mulVec, dotProduct, Fin.sum_univ_two,
    Matrix.transpose_apply, Xmat_apply, vecOf_apply, Fin.val_zero, Fin.val_one]
  rw [y3_lm_entry, y3_lm_entry, y3_lm_lhs, y3_lm_lhs]
  simp only [dy, y3]
  norm_num
  ring

theorem y3_lm_sigma2 : lmSigma2 y3 0 2 Trend.nc 0 = 1 / 100 := by
  have hcast : ((2 : ℕ) : ℝ) = 2 := by norm_num
  rw [lmSigma2, olsRSS]
  rw [show trendLength Trend.nc + 1 + 0 = 1 from rfl]
  rw [y3_lm_coef, y3_lm_gram, Matrix.one_mulVec]
  simp only [dotProduct, Fin.sum_univ_two, Fin.sum_univ_one, vecOf_apply,
    Fin.val_zero, Fin.val_one]
  rw [y3_lm_lhs, y3_lm_lhs]
  simp only [dy, y3, hcast]
  norm_num
  field_simp
  nlinarith [sqrt2_mul_self, Real.sqrt_nonneg 2]

theorem y3_stdSelect :
    stdSelect y3 0 2 Trend.nc Q3 R3 = (aicCrit 2 (1 / 50) 0, 0) := by
  rw [stdSelect]
  rw [show stdEffLag y3 0 2 Trend.nc = 0 by rw [stdEffLag]; simp]
  rw [selectAIC_zero, y3_sigma_std]
  norm_num

theorem y3_lmSelect :
    lmSelect y3 0 2 Trend.nc = (aicCrit 2 (1 / 100) 0, 0) := by
  rw [lmSelect, selectAIC_zero, y3_lm_sigma2]
  norm_num

/-- Claim C3 (counterexample): on `y3 = [3, 4, 5]` with `maxlag = 0` and
trend `'nc'`, both paths select the same lag (0) but the criterion values
differ by `2·log 2 ≈ 1.386` — far outside any floating-point tolerance — so
"the criterion values agree up to small floating-point tolerance" is false;
the low-memory path's criterion is shifted by `nobs·log(Δy'Δy)`. -/
theorem C3_criterion_values_differ :
    (lmSelect y3 0 2 Trend.nc).2 = (stdSelect y3 0 2 Trend.nc Q3 R3).2 ∧
    (stdSelect y3 0 2 Trend.nc Q3 R3).1 - (lmSelect y3 0 2 Trend.nc).1
      = 2 * Real.log 2 ∧
    1 ≤ (stdSelect y3 0 2 Trend.nc Q3 R3).1 - (lmSelect y3 0 2 Trend.nc).1 := by
  have hdiff : aicCrit 2 (1 / 50) 0 - aicCrit 2 (1 / 100) 0
      = 2 * Real.log 2 := by
    simp only [aicCrit, llf]
    rw [one_div, one_div, Real.log_inv, Real.log_inv,
      show (100 : ℝ) = 2 * 50 by norm_num,
      Real.log_mul (show (2 : ℝ) ≠ 0 by norm_num)
        (show (50 : ℝ) ≠ 0 by norm_num)]
    push_cast
    ring
  rw [y3_stdSelect, y3_lmSelect]
  refine ⟨rfl, hdiff, ?_⟩
  rw [hdiff]
  have hlog := Real.log_two_gt_d9
  linarith

/-- Claim C3 (witness): the hypotheses of `C3_selection_paths` instantiated
at `y3`, `maxlag = 0`, `nobs = 2`, trend `'nc'` with the explicit QR factors
`Q3`, `R3`, plus the resulting conclusion. -/
theorem C3_selection_paths_witness :
    (0 < 2) ∧
    stdSigma2 y3 0 2 Trend.nc Q3 R3 0 ≠ 0 ∧
    dyNorm2 y3 (2 + 0) ≠ 0 ∧
    levNorm2 y3 0 2 ≠ 0 ∧
    ((lmSelect y3 0 2 Trend.nc).2 = (stdSelect y3 0 2 Trend.nc Q3 R3).2 ∧
      (stdSelect y3 0 2 Trend.nc Q3 R3).1
        = (lmSelect y3 0 2 Trend.nc).1
          + (2 : ℕ) * Real.log (dyNorm2 y3 (2 + 0))) := by
  have hσval : stdSigma2 y3 0 2 Trend.nc Q3 R3 0 ≠ 0 := by
    rw [y3_sigma_std]
    norm_num
  have hdyval : dyNorm2 y3 (2 + 0) ≠ 0 := by
    rw [show (2 + 0 : ℕ) = 2 from rfl, y3_dyn]
    norm_num
  have hlevval : levNorm2 y3 0 2 ≠ 0 := by
    rw [y3_lev]
    norm_num
  have hQR3 : ∀ t < 2, ∀ j < trendLength Trend.nc + 1 + 0,
      stdEntry y3 0 Trend.nc t j
        = ∑ i ∈ Finset.range (trendLength Trend.nc + 1 + 0), Q3 t i * R3 i j := by
    intro t ht j hj
    have hj1 : j < 1 := by simpa [trendLength] using hj
    obtain rfl : j = 0 := by omega
    interval_cases t <;>
      simp [y3_stdEntry, Finset.sum_range_succ, trendLength, Q3, R3, y3]
  have hQ3o : ∀ i < trendLength Trend.nc + 1 + 0,
      ∀ j < trendLength Trend.nc + 1 + 0,
      (∑ t ∈ Finset.range 2, Q3 t i * Q3 t j) = if i = j then 1 else 0 := by
    intro i hi j hj
    have hi1 : i < 1 := by simpa [trendLength] using hi
    have hj1 : j < 1 := by simpa [trendLength] using hj
    obtain rfl : i = 0 := by omega
    obtain rfl : j = 0 := by omega
    simp [Finset.sum_range_succ, Q3]
    norm_num
  have hR3t : ∀ i j : ℕ, j < i → R3 i j = 0 := by
    intro i j hij
    simp only [R3]
    rw [if_neg (by omega)]
  have hInv3 : ∀ k, k ≤ 0 →
      IsUnit (gram 2 (trendLength Trend.nc + 1 + k) (stdEntry y3 0 Trend.nc)) := by
    intro k hk
    obtain rfl : k = 0 := Nat.le_zero.1 hk
    exact y3_gram_std_isUnit
  have hσ3 : ∀ k, k ≤ 0 → stdSigma2 y3 0 2 Trend.nc Q3 R3 k ≠ 0 := by
    intro k hk
    obtain rfl : k = 0 := Nat.le_zero.1 hk
    exact hσval
  exact ⟨by norm_num, hσval, hdyval, hlevval,
    C3_selection_paths y3 0 2 Trend.nc Q3 R3 (by norm_num) hQR3 hQ3o hR3t
      hInv3 hσ3 hdyval hlevval⟩

end Arch
